import Mathlib

/-!
Verification of the matrix library in DailyWind00/Matrix.

The library stores a matrix in column-major order: the C++ class holds
`std::vector<Vector<T>> data` where `data[c]` is column `c`, `data[c][r]` is the
entry at row `r` and column `c`, `cols() = data.size()` and
`rows() = data.empty() ? 0 : data[0].size()`.

We embed the scalar type `f32` as `ℚ` (exact arithmetic; the algebraic claims are
about the algorithms, not about floating-point rounding).  Division by zero in
`ℚ` yields `0`.  A `Vector<T>` is embedded as `List ℚ` (its `data` field), a
`Matrix<T>` as a structure holding the column list.  Fallible operations return
`Except Err` with one constructor per error kind of the source.
-/

/-- Square rational matrices of Mathlib, used as the mathematical reference
model for the determinant and inverse proofs. -/
abbrev MatQ (n : ℕ) := Matrix (Fin n) (Fin n) ℚ

namespace ML

/-- Error kinds raised by the library (§7 of the spec): shape mismatch and
non-square input are thrown as std invalid argument exceptions, a singular
matrix as a std logic error. -/
inductive Err where
  | shapeMismatch
  | notSquare
  | singular
deriving DecidableEq, Repr

/-- The column-major storage of the C++ class: a list of columns. -/
abbrev Data := List (List ℚ)

/-- Entry of column-major data at column c, row r; mirrors the unchecked
`data[c][r]` access of the source (out of range reads default to 0; every
in-bounds use in the source is in bounds here as well). -/
def getEntry (d : Data) (c r : ℕ) : ℚ := (d.getD c []).getD r 0

/-- Embeds the C++ class `Matrix<f32>` with its column-major `data` field. -/
structure Matrix where
  data : Data
deriving DecidableEq, Repr

/-- Number of rows, as in the source: `data.empty() ? 0 : data[0].size()`. -/
def Matrix.rows (A : Matrix) : ℕ :=
  match A.data with
  | [] => 0
  | c :: _ => c.length

/-- Number of columns, as in the source: `data.size()`. -/
def Matrix.cols (A : Matrix) : ℕ := A.data.length

/-- Shape `(rows, cols)` as in the source. -/
def Matrix.shape (A : Matrix) : ℕ × ℕ := (A.rows, A.cols)

/-- The squareness test of the source: `rows() == cols()`. -/
def Matrix.is_square (A : Matrix) : Bool := A.rows == A.cols

/-- Class invariant of the container (§3 of the spec): all columns share one
length, namely `rows()`. -/
def WF (A : Matrix) : Prop := ∀ col ∈ A.data, col.length = A.rows

/-- The scalar magnitude used by the library for real scalars:
`(v < R(0)) ? -v : v` in `Matrix::abs`. -/
def absQ (v : ℚ) : ℚ := if v < 0 then -v else v

/-- Comparison tolerance of `Matrix::operator==` (`R eps = R(1e-5)`). -/
def eps : ℚ := 1 / 100000

/-- The C++ zero-filled shape constructor `Matrix(cols, rows)`: `cols` columns,
each a zero vector of length `rows`.  Note the argument order of the source. -/
def mkMatrixData (cols rows : ℕ) : Data := List.replicate cols (List.replicate rows 0)

/-- The single-scalar constructor `Matrix(const T& value)`: the `data` member is
assigned a fixed list of four columns of length four with `value` on the
diagonal. -/
def mkScalar (v : ℚ) : Matrix :=
  ⟨[[v, 0, 0, 0], [0, v, 0, 0], [0, 0, v, 0], [0, 0, 0, v]]⟩

/- Row-level primitives shared by row_echelon and inverse.  Each mirrors a
`for (size_t k/c = 0; k < cols; k++)` loop over all columns that touches a
single row index, reading the original values (std::swap is simultaneous). -/

/-- Swaps rows r and s across every column, as the column loops around
`std::swap(result[k][r], result[k][s])` do. -/
def swapRowsD (d : Data) (r s : ℕ) : Data :=
  d.map fun col => (col.set r (col.getD s 0)).set s (col.getD r 0)

/-- Divides every entry of row r by p, as `result[k][r] /= pivot` does. -/
def scaleRow (d : Data) (r : ℕ) (p : ℚ) : Data :=
  d.map fun col => col.set r (col.getD r 0 / p)

/-- Row update `row tgt -= factor * row src` with `factor = d[fc][tgt]` read
before the column loop, exactly as the elimination loops of `row_echelon` and
`inverse` do. -/
def elimRow (d : Data) (fc src tgt : ℕ) : Data :=
  d.map fun col => col.set tgt (col.getD tgt 0 - getEntry d fc tgt * col.getD src 0)

/- Row echelon form (`Matrix::row_echelon`). -/

/-- Scan of the pivot-search `while` loop inside one column: the first row index
i in [r, rows) with a nonzero entry. -/
def findInCol (col : List ℚ) (r rows : ℕ) : Option ℕ :=
  (List.range' r (rows - r)).find? fun i => decide (col.getD i 0 ≠ 0)

/-- Pivot search over successive leading columns, starting at row r each time a
column is exhausted; fuel counts the columns still available.  Mirrors the
`while (result[lead][i] == T(0))` loop with its `lead++` restart. -/
def findPivotAux (d : Data) (rows r : ℕ) : ℕ → ℕ → Option (ℕ × ℕ)
  | 0, _ => none
  | fuel + 1, lead =>
    match findInCol (d.getD lead []) r rows with
    | some i => some (lead, i)
    | none => findPivotAux d rows r fuel (lead + 1)

/-- Pivot search entry point: scans columns lead, lead+1, ..., cols-1. -/
def findPivot (d : Data) (rows cols r lead : ℕ) : Option (ℕ × ℕ) :=
  findPivotAux d rows r (cols - lead) lead

/-- Control state of the forward pass: still running, stopped by `break`
(back substitution still runs), or stopped by the early `return` inside the
pivot search (back substitution is skipped). -/
inductive FMode where
  | run
  | brk
  | early
deriving DecidableEq, Repr

/-- State of the forward pass: current data, current leading column, mode. -/
structure FState where
  d : Data
  lead : ℕ
  mode : FMode
deriving DecidableEq, Repr

/-- One iteration of the forward `for (size_t r = 0; r < rows(); r++)` loop of
`row_echelon`.  Note the source swaps the current row with row `i - 1`, not
with the found pivot row `i`. -/
def forwardStep (rows cols : ℕ) (st : FState) (r : ℕ) : FState :=
  match st.mode with
  | .brk => st
  | .early => st
  | .run =>
    if st.lead ≥ cols then { st with mode := .brk }
    else
      match findPivot st.d rows cols r st.lead with
      | none => { st with mode := .early }
      | some (lead, i) =>
        let d1 := if i ≠ r then swapRowsD st.d r (i - 1) else st.d
        let pivot := getEntry d1 lead r
        let d2 := if pivot ≠ 0 then scaleRow d1 r pivot else d1
        let d3 := (List.range' (r + 1) (rows - (r + 1))).foldl
          (fun dd j => elimRow dd lead r j) d2
        ⟨d3, lead + 1, .run⟩

/-- Pivot column search of the backward pass: first column c with a nonzero
entry in row r. -/
def findPivotCol (d : Data) (cols r : ℕ) : Option ℕ :=
  (List.range cols).find? fun c => decide (getEntry d c r ≠ 0)

/-- One iteration of the backward `for (ssize_t r = rows() - 1; r >= 0; r--)`
loop: find the pivot column of row r and eliminate the rows above. -/
def backStep (cols : ℕ) (d : Data) (r : ℕ) : Data :=
  match findPivotCol d cols r with
  | none => d
  | some pc => ((List.range r).reverse).foldl (fun dd i => elimRow dd pc r i) d

/-- The backward pass over rows from the bottom up. -/
def backwardPass (d : Data) (rows cols : ℕ) : Data :=
  ((List.range rows).reverse).foldl (backStep cols) d

/-- Embeds `Matrix::row_echelon`: forward pass with pivot search, swap,
normalisation and elimination below, then (unless the pivot search ran out of
columns and returned early) the backward pass. -/
def rowEchelon (A : Matrix) : Matrix :=
  match (List.range A.rows).foldl (forwardStep A.rows A.cols) ⟨A.data, 0, FMode.run⟩ with
  | ⟨d, _, .early⟩ => ⟨d⟩
  | st => ⟨backwardPass st.d A.rows A.cols⟩

/- Vector operations used by the claims. -/

/-- Embeds `Vector::operator==`: `data == other.data`, the exact elementwise
comparison of std::vector. -/
def vecEq (a b : List ℚ) : Bool := decide (a = b)

/-- Embeds `Vector::reshape(rows, cols)`: size check, then a row-major chunking
whose row list is handed directly to the `Matrix(std::vector<Vector<T>>)`
constructor, which installs it as the column list. -/
def reshape (v : List ℚ) (rows cols : ℕ) : Except Err Matrix :=
  if rows * cols ≠ v.length then .error .shapeMismatch
  else .ok ⟨(List.range rows).map fun i =>
    (List.range cols).map fun j => v.getD (i * cols + j) 0⟩

/- Matrix comparison and products. -/

/-- Embeds `Matrix::operator==`: false on differing shape, otherwise true iff no
entry pair has `abs(difference) > eps`. -/
def matEq (A B : Matrix) : Bool :=
  if A.rows ≠ B.rows ∨ A.cols ≠ B.cols then false
  else (List.range A.cols).all fun c =>
    (List.range A.rows).all fun r =>
      decide (¬ absQ (getEntry A.data c r - getEntry B.data c r) > eps)

/-- Embeds `Matrix::mul_vec`: checks `rows() != other.size()`, then accumulates
`result[c] = fma(data[c][r], other[r], result[c])` over r for each c into a
zero-initialised vector of length `cols()`. -/
def mul_vec (A : Matrix) (x : List ℚ) : Except Err (List ℚ) :=
  if A.rows ≠ x.length then .error .shapeMismatch
  else .ok ((List.range A.cols).foldl
    (fun res c => res.set c ((List.range A.rows).foldl
      (fun acc r => getEntry A.data c r * x.getD r 0 + acc) (res.getD c 0)))
    (List.replicate A.cols 0))

/-- Result of `Matrix::mul_mat` in the embedding: shape error, undefined
behaviour from an out-of-bounds access to the result storage, or a matrix. -/
inductive MulResult where
  | shapeErr
  | oob
  | ok (M : Matrix)
deriving DecidableEq, Repr

/-- Checked read of the result storage in `mul_mat`; `none` marks an access the
C++ std::vector would perform out of bounds (undefined behaviour). -/
def getEntryChk (d : Data) (c r : ℕ) : Option ℚ :=
  if c < d.length ∧ r < (d.getD c []).length then some (getEntry d c r) else none

/-- Checked write of the result storage in `mul_mat`. -/
def setEntryChk (d : Data) (c r : ℕ) (v : ℚ) : Option Data :=
  if c < d.length ∧ r < (d.getD c []).length
  then some (d.set c ((d.getD c []).set r v)) else none

/-- The triple loop of `mul_mat` over c < cols(B), r < rows(A), k < cols(A),
carried out on the result storage with checked accesses. -/
def mulMatLoop (dA dB : Data) (colsA rowsA colsB : ℕ) (res : Data) : Option Data :=
  (List.range colsB).foldlM
    (fun res c => (List.range rowsA).foldlM
      (fun res r => (List.range colsA).foldlM
        (fun res k => do
          let cur ← getEntryChk res c r
          setEntryChk res c r (getEntry dA k r * getEntry dB c k + cur))
        res)
      res)
    res

/-- Embeds `Matrix::mul_mat`: shape check `cols() != other.rows()`, result
storage built by `Matrix(rows(), other.cols())` whose constructor takes
`(cols, rows)`, then the triple accumulation loop. -/
def mul_mat (A B : Matrix) : MulResult :=
  if A.cols ≠ B.rows then .shapeErr
  else
    match mulMatLoop A.data B.data A.cols A.rows B.cols (mkMatrixData A.rows B.cols) with
    | none => .oob
    | some d => .ok ⟨d⟩

/-- Unchecked entry write `d[c][r] = v`, used where every access of the source
is in bounds (List.set ignores out-of-range indices). -/
def setE (d : Data) (c r : ℕ) (v : ℚ) : Data :=
  d.set c ((d.getD c []).set r v)

/-- Embeds `Matrix::transpose`: result built by `Matrix(rows(), cols())` (the
constructor takes `(cols, rows)`, so the result has `rows()` columns of length
`cols()`) and filled with `result[r][c] = data[c][r]`. -/
def transpose (A : Matrix) : Matrix :=
  ⟨(List.range A.cols).foldl
    (fun res c => (List.range A.rows).foldl
      (fun res2 r => setE res2 r c (getEntry A.data c r)) res)
    (mkMatrixData A.rows A.cols)⟩

/- Determinant (`Matrix::determinant`).  For n >= 3 the source runs Gaussian
elimination directly on the `data` member, i.e. on the COLUMN list: it swaps
whole columns (`std::swap(tmp.data[i], tmp.data[j])`) and subtracts multiples
of column i from column j at indices k in [i, n). -/

/-- Swap of the outer list elements i and j (two whole columns),
simultaneous like std::swap. -/
def swapCols (d : Data) (i j : ℕ) : Data :=
  (d.set i (d.getD j [])).set j (d.getD i [])

/-- The fallback search of determinant: first j in (i, n) with
`tmp.data[j][i] != 0`. -/
def findSwapCol (d : Data) (i n : ℕ) : Option ℕ :=
  (List.range' (i + 1) (n - (i + 1))).find? fun j => decide (getEntry d j i ≠ 0)

/-- Inner update of the determinant elimination: for k in [i, n),
`cj[k] -= factor * ci[k]`, folding over k exactly as the source loop does. -/
def colSubFrom (cj ci : List ℚ) (factor : ℚ) (i n : ℕ) : List ℚ :=
  (List.range' i (n - i)).foldl
    (fun col k => col.set k (col.getD k 0 - factor * ci.getD k 0)) cj

/-- Elimination of column j in the determinant:
`factor = tmp.data[j][i] / tmp.data[i][i]`, then the k loop on column j. -/
def detElimCol (d : Data) (i j n : ℕ) : Data :=
  let factor := getEntry d j i / getEntry d i i
  d.set j (colSubFrom (d.getD j []) (d.getD i []) factor i n)

/-- One iteration of the determinant elimination loop: optional column swap
when the diagonal entry is exactly zero (tracking the swap count), then
elimination of all columns j in (i, n). -/
def detStep (n : ℕ) (st : Data × ℕ) (i : ℕ) : Data × ℕ :=
  let d := st.1
  let swaps := st.2
  let swapped :=
    if getEntry d i i = 0 then
      match findSwapCol d i n with
      | some j => (swapCols d i j, swaps + 1)
      | none => (d, swaps)
    else (d, swaps)
  ((List.range' (i + 1) (n - (i + 1))).foldl
    (fun dd j => detElimCol dd i j n) swapped.1, swapped.2)

/-- The n >= 3 branch of determinant: eliminate, then return the signed product
of the diagonal, the sign being `(swaps % 2 == 0) ? 1 : -1`. -/
def detGauss (d : Data) (n : ℕ) : ℚ :=
  let fin := (List.range n).foldl (detStep n) (d, 0)
  (List.range n).foldl (fun acc i => acc * getEntry fin.1 i i)
    (if fin.2 % 2 = 0 then 1 else -1)

/-- Embeds `Matrix::determinant`: non-square check, closed forms for n = 1 and
n = 2, Gaussian elimination otherwise (including n = 0, which yields 1). -/
def determinant (A : Matrix) : Except Err ℚ :=
  if ¬ A.is_square then .error .notSquare
  else if A.rows = 1 then .ok (getEntry A.data 0 0)
  else if A.rows = 2 then
    .ok (getEntry A.data 0 0 * getEntry A.data 1 1
       - getEntry A.data 1 0 * getEntry A.data 0 1)
  else .ok (detGauss A.data A.rows)

/- Inverse (`Matrix::inverse`). -/

/-- The identity matrix the source builds inside inverse:
`Matrix identity(n, n)` then `identity[i][i] = T(1)`. -/
def identityData (n : ℕ) : Data :=
  (List.range n).foldl (fun d i => setE d i i 1) (mkMatrixData n n)

/-- Effect of the copy loops of `operator|` on one column: entries r < rows are
copied, so a column becomes its first `rows` entries (all columns of the
operands have exactly that length under the class invariant). -/
def normCol (col : List ℚ) (rows : ℕ) : List ℚ :=
  (List.range rows).map fun r => col.getD r 0

/-- Data-level horizontal concatenation `*this | identity` as used inside
inverse, where both operands have `rows` rows: the row-count check of
`operator|` passes and the copy loops lay the columns of the left operand
before those of the right one. -/
def hconcatD (a b : Data) (rows : ℕ) : Data :=
  (a ++ b).map fun col => normCol col rows

/-- Partial pivot search of inverse: the row j in [i, n) maximising
`abs(augmented[i][j])`, scanned with a strict comparison starting from
`pivot_row = i`. -/
def gjFindPivot (d : Data) (i n : ℕ) : ℕ :=
  (List.range' i (n - i)).foldl
    (fun pr j => if absQ (getEntry d i j) > absQ (getEntry d i pr) then j else pr) i

/-- The data after the optional row swap of one Gauss-Jordan step. -/
def gjPivoted (d : Data) (i n : ℕ) : Data :=
  if gjFindPivot d i n ≠ i then swapRowsD d i (gjFindPivot d i n) else d

/-- One Gauss-Jordan step of inverse: partial pivot swap, singularity check on
the pivot, row normalisation, then elimination of every other row r != i. -/
def gjStep (n : ℕ) (d : Data) (i : ℕ) : Except Err Data :=
  if getEntry (gjPivoted d i n) i i = 0 then .error .singular
  else
    .ok ((List.range n).foldl
      (fun dd r => if r = i then dd else elimRow dd i i r)
      (scaleRow (gjPivoted d i n) i (getEntry (gjPivoted d i n) i i)))

/-- The Gauss-Jordan elimination loop of inverse over the n pivot steps. -/
def gjLoop (d : Data) (n : ℕ) : Except Err Data :=
  (List.range n).foldlM (gjStep n) d

/-- Extraction of the right half of the augmented matrix:
`Matrix inverse(n, n)` filled with `inverse[c][r] = augmented[c + n][r]`. -/
def extractRight (d : Data) (n : ℕ) : Data :=
  (List.range n).map fun c => normCol (d.getD (c + n) []) n

/-- Embeds `Matrix::inverse`: non-square check, zero-determinant check through
`determinant()` (which cannot itself fail here since the matrix is square),
augmentation with the identity, Gauss-Jordan elimination with partial pivoting
by magnitude, and extraction of the right half. -/
def inverse (A : Matrix) : Except Err Matrix :=
  if ¬ A.is_square then .error .notSquare
  else
    match determinant A with
    | .error e => .error e
    | .ok dv =>
      if dv = 0 then .error .singular
      else
        match gjLoop (hconcatD A.data (identityData A.rows) A.rows) A.rows with
        | .error e => .error e
        | .ok aug => .ok ⟨extractRight aug A.rows⟩

/- Specification-side definitions, written from the words of the claims. -/

/-- Index of the leading (first nonzero) entry of row r, if any. -/
def leadingIdx (d : Data) (cols r : ℕ) : Option ℕ :=
  (List.range cols).find? fun c => decide (getEntry d c r ≠ 0)

/-- Reduced row-echelon form as the claim states it: every nonzero row has
leading entry 1, that entry is the only nonzero entry of its column, and
leading entries move strictly right going down the rows. -/
def isRREFSpec (M : Matrix) : Bool :=
  (List.range M.rows).all fun r =>
    match leadingIdx M.data M.cols r with
    | none => true
    | some c =>
      decide (getEntry M.data c r = 1)
      && ((List.range M.rows).all fun r2 =>
            r2 == r || decide (getEntry M.data c r2 = 0))
      && ((List.range M.rows).all fun r2 =>
            decide (r2 ≤ r) ||
            match leadingIdx M.data M.cols r2 with
            | none => true
            | some c2 => decide (c < c2))

/-- An all-zero matrix: every stored entry is zero (covers the empty matrix). -/
def allZero (A : Matrix) : Prop := ∀ col ∈ A.data, ∀ x ∈ col, x = 0

/-- Dimension bookkeeping for raw column data. -/
def dims (d : Data) (cols rows : ℕ) : Prop :=
  d.length = cols ∧ ∀ col ∈ d, col.length = rows

/-- The mathematical matrix described by column-major data: entry at row i and
column j is the stored `data[j][i]`. -/
def toM (n : ℕ) (d : Data) : MatQ n := Matrix.of fun i j => getEntry d j i

/-- The right block (columns n..2n-1) of an augmented matrix, as a Mathlib
matrix. -/
def rightM (n : ℕ) (d : Data) : MatQ n := Matrix.of fun i j => getEntry d (n + j) i

/- Generic fold lemmas. -/

theorem foldl_fix {β α : Type _} {f : β → α → β} {b : β} (h : ∀ a, f b a = b) :
    ∀ l : List α, l.foldl f b = b
  | [] => rfl
  | a :: l => by rw [List.foldl_cons, h a]; exact foldl_fix h l

theorem range'_foldl_inv {β : Type _} (f : β → ℕ → β) (Q : ℕ → β → Prop) :
    ∀ (len a : ℕ) (b0 : β), Q a b0 →
      (∀ j b, a ≤ j → j < a + len → Q j b → Q (j + 1) (f b j)) →
      Q (a + len) ((List.range' a len).foldl f b0)
  | 0, a, b0, h0, _ => h0
  | len + 1, a, b0, h0, h => by
    rw [List.range'_succ, List.foldl_cons]
    have h1 : Q (a + 1) (f b0 a) := h a b0 (Nat.le_refl a) (by omega) h0
    have h2 := range'_foldl_inv f Q len (a + 1) (f b0 a) h1
      (fun j b hj1 hj2 hb => h j b (by omega) (by omega) hb)
    have : a + 1 + len = a + (len + 1) := by omega
    rw [this] at h2
    exact h2

theorem range_foldl_inv {β : Type _} (n : ℕ) (f : β → ℕ → β) (Q : ℕ → β → Prop) (b0 : β)
    (h0 : Q 0 b0) (h : ∀ j b, j < n → Q j b → Q (j + 1) (f b j)) :
    Q n ((List.range n).foldl f b0) := by
  have h2 := range'_foldl_inv f Q n 0 b0 h0 (fun j b hj1 hj2 hb => h j b (by omega) hb)
  rw [List.range_eq_range']
  simpa using h2

theorem range'_foldlM_exc {β ε : Type _} (f : β → ℕ → Except ε β) (Q : ℕ → β → Prop) :
    ∀ (len a : ℕ) (b0 : β), Q a b0 →
      (∀ j b, a ≤ j → j < a + len → Q j b → ∃ b2, f b j = .ok b2 ∧ Q (j + 1) b2) →
      ∃ bf, (List.range' a len).foldlM f b0 = .ok bf ∧ Q (a + len) bf
  | 0, a, b0, h0, _ => ⟨b0, rfl, h0⟩
  | len + 1, a, b0, h0, h => by
    rw [List.range'_succ, List.foldlM_cons]
    obtain ⟨b1, hb1, hQ1⟩ := h a b0 (Nat.le_refl a) (by omega) h0
    obtain ⟨bf, hbf, hQf⟩ := range'_foldlM_exc f Q len (a + 1) b1 hQ1
      (fun j b hj1 hj2 hb => h j b (by omega) (by omega) hb)
    have hEq : a + 1 + len = a + (len + 1) := by omega
    rw [hEq] at hQf
    exact ⟨bf, by rw [hb1]; simpa using hbf, hQf⟩

theorem range_foldlM_exc {β ε : Type _} (n : ℕ) (f : β → ℕ → Except ε β) (Q : ℕ → β → Prop)
    (b0 : β) (h0 : Q 0 b0)
    (h : ∀ j b, j < n → Q j b → ∃ b2, f b j = .ok b2 ∧ Q (j + 1) b2) :
    ∃ bf, (List.range n).foldlM f b0 = .ok bf ∧ Q n bf := by
  have h2 := range'_foldlM_exc f Q n 0 b0 h0 (fun j b hj1 hj2 hb => h j b (by omega) hb)
  rw [List.range_eq_range']
  simpa using h2

/- List access lemmas. -/

theorem getD_set_self {l : List ℚ} {j : ℕ} (h : j < l.length) (v : ℚ) :
    (l.set j v).getD j 0 = v := by
  simp [List.getD_eq_getElem?_getD, List.getElem?_set_self, h]

theorem getD_set_ne {l : List ℚ} {i j : ℕ} (h : i ≠ j) (v : ℚ) :
    (l.set j v).getD i 0 = l.getD i 0 := by
  simp [List.getD_eq_getElem?_getD, List.getElem?_set_ne (Ne.symm h)]

theorem getD_oob {l : List ℚ} {i : ℕ} (h : l.length ≤ i) : l.getD i 0 = 0 :=
  List.getD_eq_default _ _ h

theorem getDCol_oob {d : Data} {c : ℕ} (h : d.length ≤ c) : d.getD c [] = [] :=
  List.getD_eq_default _ _ h

theorem getDCol_eq_getElem {d : Data} {c : ℕ} (h : c < d.length) : d.getD c [] = d[c] := by
  rw [List.getD_eq_getElem?_getD, List.getElem?_eq_getElem h]
  rfl

theorem getEntry_oob {d : Data} {c : ℕ} (h : d.length ≤ c) (r : ℕ) : getEntry d c r = 0 := by
  unfold getEntry
  rw [getDCol_oob h]
  rfl

theorem col_length {d : Data} {cols rows : ℕ} (hd : dims d cols rows) {c : ℕ}
    (h : c < d.length) : (d.getD c []).length = rows := by
  rw [getDCol_eq_getElem h]
  exact hd.2 _ (List.getElem_mem h)

theorem getEntry_map {d : Data} (f : List ℚ → List ℚ) {c : ℕ} (h : c < d.length) (r : ℕ) :
    getEntry (d.map f) c r = (f (d.getD c [])).getD r 0 := by
  unfold getEntry
  congr 1
  simp [List.getD_eq_getElem?_getD, List.getElem?_map, List.getElem?_eq_getElem h]

theorem getEntry_map_oob {d : Data} (f : List ℚ → List ℚ) {c : ℕ} (h : d.length ≤ c) (r : ℕ) :
    getEntry (d.map f) c r = 0 :=
  getEntry_oob (by simpa using h) r

theorem getEntry_set_self {d : Data} {c : ℕ} (h : c < d.length) (v : List ℚ) (r : ℕ) :
    getEntry (d.set c v) c r = v.getD r 0 := by
  unfold getEntry
  congr 1
  simp [List.getD_eq_getElem?_getD, List.getElem?_set_self, h]

theorem getEntry_set_ne {d : Data} {c j : ℕ} (h : c ≠ j) (v : List ℚ) (r : ℕ) :
    getEntry (d.set j v) c r = getEntry d c r := by
  unfold getEntry
  congr 1
  simp [List.getD_eq_getElem?_getD, List.getElem?_set_ne (Ne.symm h)]

/- Dimension preservation. -/

theorem dims_map {d : Data} {cols rows : ℕ} (hd : dims d cols rows) (f : List ℚ → List ℚ)
    (hf : ∀ col, (f col).length = col.length) : dims (d.map f) cols rows := by
  refine ⟨by simpa using hd.1, ?_⟩
  intro col hcol
  obtain ⟨c0, hc0, rfl⟩ := List.mem_map.1 hcol
  rw [hf]
  exact hd.2 _ hc0

theorem dims_set {d : Data} {cols rows : ℕ} (hd : dims d cols rows) {j : ℕ} {v : List ℚ}
    (hv : v.length = rows) : dims (d.set j v) cols rows := by
  refine ⟨by simpa using hd.1, ?_⟩
  intro col hcol
  rcases List.mem_or_eq_of_mem_set hcol with h | h
  · exact hd.2 _ h
  · rw [h]; exact hv

theorem dims_swapRowsD {d : Data} {cols rows : ℕ} (hd : dims d cols rows) (r s : ℕ) :
    dims (swapRowsD d r s) cols rows :=
  dims_map hd _ (by intro col; simp)

theorem dims_scaleRow {d : Data} {cols rows : ℕ} (hd : dims d cols rows) (r : ℕ) (p : ℚ) :
    dims (scaleRow d r p) cols rows :=
  dims_map hd _ (by intro col; simp)

theorem dims_elimRow {d : Data} {cols rows : ℕ} (hd : dims d cols rows) (fc src tgt : ℕ) :
    dims (elimRow d fc src tgt) cols rows :=
  dims_map hd _ (by intro col; simp)

/- Row operation characterisations. -/

theorem getEntry_swapRowsD {d : Data} {cols rows : ℕ} (hd : dims d cols rows)
    {r s : ℕ} (hr : r < rows) (hs : s < rows) (c k : ℕ) :
    getEntry (swapRowsD d r s) c k
      = getEntry d c (if k = r then s else if k = s then r else k) := by
  by_cases hc : c < d.length
  · have hlen : (d.getD c []).length = rows := col_length hd hc
    rw [swapRowsD, getEntry_map _ hc]
    show (((d.getD c []).set r ((d.getD c []).getD s 0)).set s
        ((d.getD c []).getD r 0)).getD k 0
      = (d.getD c []).getD (if k = r then s else if k = s then r else k) 0
    have hsl : ((d.getD c []).set r ((d.getD c []).getD s 0)).length = rows := by
      simpa using hlen
    by_cases hks : k = s
    · subst hks
      rw [getD_set_self (by omega)]
      by_cases hkr : k = r
      · subst hkr; simp
      · simp [hkr]
    · rw [getD_set_ne hks]
      by_cases hkr : k = r
      · subst hkr
        rw [getD_set_self (by omega)]
        simp [hks]
      · rw [getD_set_ne hkr]
        simp [hkr, hks]
  · have h0 : d.length ≤ c := by omega
    rw [swapRowsD, getEntry_map_oob _ h0, getEntry_oob h0]

theorem getEntry_scaleRow {d : Data} {cols rows : ℕ} (hd : dims d cols rows)
    {r : ℕ} (hr : r < rows) (p : ℚ) (c k : ℕ) :
    getEntry (scaleRow d r p) c k
      = if k = r then getEntry d c r / p else getEntry d c k := by
  by_cases hc : c < d.length
  · have hlen : (d.getD c []).length = rows := col_length hd hc
    rw [scaleRow, getEntry_map _ hc]
    show ((d.getD c []).set r ((d.getD c []).getD r 0 / p)).getD k 0
      = if k = r then (d.getD c []).getD r 0 / p else (d.getD c []).getD k 0
    by_cases hkr : k = r
    · subst hkr
      rw [getD_set_self (by omega)]
      simp
    · rw [getD_set_ne hkr]
      simp [hkr]
  · have h0 : d.length ≤ c := by omega
    rw [scaleRow, getEntry_map_oob _ h0, getEntry_oob h0 r, getEntry_oob h0 k]
    simp

theorem getEntry_elimRow {d : Data} {cols rows : ℕ} (hd : dims d cols rows)
    {tgt : ℕ} (ht : tgt < rows) (fc src c k : ℕ) :
    getEntry (elimRow d fc src tgt) c k
      = if k = tgt then getEntry d c tgt - getEntry d fc tgt * getEntry d c src
        else getEntry d c k := by
  by_cases hc : c < d.length
  · have hlen : (d.getD c []).length = rows := col_length hd hc
    rw [elimRow, getEntry_map _ hc]
    show ((d.getD c []).set tgt ((d.getD c []).getD tgt 0
        - getEntry d fc tgt * (d.getD c []).getD src 0)).getD k 0
      = if k = tgt then (d.getD c []).getD tgt 0
          - getEntry d fc tgt * (d.getD c []).getD src 0
        else (d.getD c []).getD k 0
    by_cases hkt : k = tgt
    · subst hkt
      rw [getD_set_self (by omega)]
      simp
    · rw [getD_set_ne hkt]
      simp [hkt]
  · have h0 : d.length ≤ c := by omega
    rw [elimRow, getEntry_map_oob _ h0, getEntry_oob h0 tgt, getEntry_oob h0 src,
      getEntry_oob h0 k]
    simp

/- The scalar magnitude of the source agrees with the absolute value. -/

theorem absQ_eq_abs (v : ℚ) : absQ v = |v| := by
  unfold absQ
  split
  · exact (abs_of_neg (by assumption)).symm
  · exact (abs_of_nonneg (not_lt.1 (by assumption))).symm

/- Matrix equality semantics (claim C8). -/

theorem matEq_iff (A B : Matrix) :
    matEq A B = true ↔ A.rows = B.rows ∧ A.cols = B.cols ∧
      ∀ c < A.cols, ∀ r < A.rows,
        |getEntry A.data c r - getEntry B.data c r| ≤ eps := by
  unfold matEq
  by_cases h : A.rows ≠ B.rows ∨ A.cols ≠ B.cols
  · rw [if_pos h]
    constructor
    · intro hF
      exact absurd hF (by simp)
    · rintro ⟨h1, h2, _⟩
      rcases h with h | h <;> exact absurd (by assumption) h
  · rw [if_neg h]
    push_neg at h
    simp only [List.all_eq_true, List.mem_range, decide_eq_true_eq, not_lt, absQ_eq_abs]
    constructor
    · intro hall
      exact ⟨h.1, h.2, fun c hc r hr => hall c hc r hr⟩
    · rintro ⟨_, _, hall⟩ c hc r hr
      exact hall c hc r hr

/-- C8: the claim states that the equality comparison the core exposes on its
containers is elementwise with absolute tolerance 1e-5 through the magnitude.
This holds for the Matrix comparison but not for the Vector comparison, which
is the exact std::vector equality: two single-entry vectors differing by
exactly 1e-5 are within tolerance yet compare unequal. -/
theorem vector_eq_not_tolerant :
    vecEq [(0 : ℚ)] [1 / 100000] = false ∧
    [(0 : ℚ)].length = [(1 / 100000 : ℚ)].length ∧
    |(0 : ℚ) - 1 / 100000| ≤ eps := by
  refine ⟨by with_unfolding_all rfl, rfl, ?_⟩
  rw [eps, zero_sub, abs_neg, abs_of_nonneg (by norm_num)]

/-- C8 (amended): the Matrix comparison is elementwise with fixed absolute
tolerance 1e-5 applied through the magnitude (same shape and every entry pair
within tolerance), while the Vector comparison is the exact elementwise
equality of std::vector. -/
theorem eq_comparison_semantics :
    (∀ A B : Matrix,
      matEq A B = true ↔ A.rows = B.rows ∧ A.cols = B.cols ∧
        ∀ c < A.cols, ∀ r < A.rows,
          |getEntry A.data c r - getEntry B.data c r| ≤ eps) ∧
    (∀ u v : List ℚ, vecEq u v = true ↔ u = v) := by
  refine ⟨matEq_iff, ?_⟩
  intro u v
  simp [vecEq]

/-- C10: the single-argument constructor always produces a 4 by 4 matrix with
the given value at every diagonal position and zero elsewhere; the size 4 is
fixed inside the constructor, whatever the scalar argument is. -/
theorem mkScalar_is_4x4_diagonal :
    ∀ v : ℚ, (mkScalar v).shape = (4, 4) ∧
      ∀ i j : Fin 4, getEntry (mkScalar v).data j i = if (i : ℕ) = j then v else 0 := by
  intro v
  refine ⟨rfl, ?_⟩
  intro i j
  fin_cases i <;> fin_cases j <;> simp [mkScalar, getEntry]

/-- C7: at the failing input, reshape of the vector 1..6 into 2 rows and 3
columns hands the row chunks [1,2,3] and [4,5,6] directly to the column-major
constructor, so the result has shape (3, 2) (not (2, 3)) and its entry at row
0, column 1 is 4 (not the row-major 2 the claim requires). -/
theorem reshape_returns_transpose :
    reshape [1, 2, 3, 4, 5, 6] 2 3 = .ok ⟨[[1, 2, 3], [4, 5, 6]]⟩ ∧
    (Matrix.mk [[1, 2, 3], [4, 5, 6]]).shape = (3, 2) ∧
    getEntry [[1, 2, 3], [4, 5, 6]] 1 0 = 4 := by
  refine ⟨?_, rfl, rfl⟩
  rfl

/-- C3: at the failing input, a 1 by 2 matrix times a 2 by 3 matrix, the shape
check passes but the result storage is built by the constructor with swapped
arguments, giving a matrix of 1 column with 3 rows (shape (3, 1) instead of
the claimed 1 by 3); the write loops then access column 1 of that storage out
of bounds, which is undefined behaviour in the source. -/
theorem mul_mat_out_of_bounds :
    mul_mat ⟨[[1], [2]]⟩ ⟨[[1, 0], [0, 1], [0, 0]]⟩ = .oob ∧
    (Matrix.mk [[1], [2]]).rows = 1 ∧
    (Matrix.mk [[1, 0], [0, 1], [0, 0]]).cols = 3 ∧
    (Matrix.mk (mkMatrixData 1 3)).shape = (3, 1) := by
  exact ⟨rfl, rfl, rfl, rfl⟩

/-- C1: at the failing input with rows (0, 1) and (1, 0), the forward pass
swaps the current row with row i - 1 instead of the found pivot row i, so the
pivot is not moved into place and the output, with rows (0, 1) and (-1, 1), is
not in reduced row-echelon form: its second row is nonzero with leading entry
-1, and the leading entries do not move strictly right going down. -/
theorem row_echelon_not_rref :
    rowEchelon ⟨[[0, 1], [1, 0]]⟩ = ⟨[[0, -1], [1, 1]]⟩ ∧
    isRREFSpec ⟨[[0, -1], [1, 1]]⟩ = false := by
  exact ⟨by with_unfolding_all rfl, by with_unfolding_all rfl⟩

/- Claim C9: row_echelon leaves empty and all-zero matrices unchanged. -/

theorem allZero_getEntry {A : Matrix} (h : allZero A) (c r : ℕ) : getEntry A.data c r = 0 := by
  unfold getEntry
  by_cases hc : c < A.data.length
  · rw [getDCol_eq_getElem hc]
    by_cases hr : r < (A.data[c]).length
    · have hx := h _ (List.getElem_mem hc) _ (List.getElem_mem hr)
      simp [List.getD_eq_getElem?_getD, List.getElem?_eq_getElem hr, hx]
    · exact getD_oob (by omega)
  · rw [getDCol_oob (by omega)]
    rfl

theorem findInCol_zero {col : List ℚ} (h : ∀ i, col.getD i 0 = 0) (r rows : ℕ) :
    findInCol col r rows = none := by
  unfold findInCol
  rw [List.find?_eq_none]
  intro i _
  have hi := h i
  rw [List.getD_eq_getElem?_getD] at hi
  simp [hi]

theorem findPivotAux_zero {d : Data} (h : ∀ c r2, getEntry d c r2 = 0) (rows r : ℕ) :
    ∀ fuel lead, findPivotAux d rows r fuel lead = none := by
  intro fuel
  induction fuel with
  | zero => intro lead; rfl
  | succ n ih =>
    intro lead
    unfold findPivotAux
    rw [findInCol_zero fun i => h lead i]
    exact ih (lead + 1)

theorem forwardStep_stopped {rows cols : ℕ} {st : FState}
    (h : st.mode = .brk ∨ st.mode = .early) (r : ℕ) : forwardStep rows cols st r = st := by
  rcases st with ⟨d, lead, mode⟩
  rcases h with h | h <;> (simp only at h; subst h; rfl)

/-- C9: row_echelon applied to an empty matrix (zero columns) or to an all-zero
matrix of any shape returns the input unchanged: with no rows the loops do
nothing, with no columns the forward pass breaks at once and the backward pass
finds no pivot columns, and otherwise the pivot search exhausts all columns and
returns early without modifying the copy. -/
theorem rowEchelon_allZero {A : Matrix} (h : allZero A) : rowEchelon A = A := by
  have hz : ∀ c r2, getEntry A.data c r2 = 0 := allZero_getEntry h
  unfold rowEchelon
  rcases hrows : A.rows with _ | m
  · rfl
  · rcases hcols : A.cols with _ | k
    · rw [List.range_eq_range', List.range'_succ 0 m 1, List.foldl_cons]
      have h1 : forwardStep (m + 1) 0 ⟨A.data, 0, .run⟩ 0 = ⟨A.data, 0, .brk⟩ := by
        unfold forwardStep
        rw [if_pos (by omega)]
      rw [h1, foldl_fix (forwardStep_stopped (Or.inl rfl))]
      show Matrix.mk (backwardPass A.data (m + 1) 0) = A
      have h3 : backwardPass A.data (m + 1) 0 = A.data := by
        unfold backwardPass
        exact foldl_fix (fun a => rfl) _
      rw [h3]
    · rw [List.range_eq_range', List.range'_succ 0 m 1, List.foldl_cons]
      have h1 : forwardStep (m + 1) (k + 1) ⟨A.data, 0, .run⟩ 0 = ⟨A.data, 0, .early⟩ := by
        unfold forwardStep
        have hlt : ¬ (FState.mk A.data 0 FMode.run).lead ≥ k + 1 := by
          show ¬ 0 ≥ k + 1
          omega
        rw [if_neg hlt]
        have hfp : findPivot A.data (m + 1) (k + 1) 0 0 = none := findPivotAux_zero hz _ _ _ _
        rw [hfp]
      rw [h1, foldl_fix (forwardStep_stopped (Or.inr rfl))]

/-- C9 witness: a concrete all-zero 2 by 2 matrix is returned unchanged. -/
theorem rowEchelon_allZero_witness :
    allZero ⟨[[0, 0], [0, 0]]⟩ ∧ rowEchelon ⟨[[0, 0], [0, 0]]⟩ = ⟨[[0, 0], [0, 0]]⟩ :=
  ⟨by unfold allZero; decide, rowEchelon_allZero (by unfold allZero; decide)⟩

/- Claim C2: mul_vec semantics. -/

theorem foldl_add_sum (g : ℕ → ℚ) :
    ∀ (n : ℕ) (init : ℚ),
      (List.range n).foldl (fun acc r => g r + acc) init
        = (∑ r ∈ Finset.range n, g r) + init := by
  intro n
  induction n with
  | zero => intro init; simp
  | succ m ih =>
    intro init
    rw [List.range_succ, List.foldl_append, ih init, Finset.sum_range_succ]
    show g m + ((∑ r ∈ Finset.range m, g r) + init) = _
    ring

theorem mul_vec_ok {A : Matrix} {x : List ℚ} (h : A.rows = x.length) :
    mul_vec A x = .ok ((List.range A.cols).map fun c =>
      ∑ r ∈ Finset.range A.rows, getEntry A.data c r * x.getD r 0) := by
  unfold mul_vec
  rw [if_neg (by simp [h])]
  congr 1
  have key := range_foldl_inv A.cols
    (fun res c => res.set c ((List.range A.rows).foldl
      (fun acc r => getEntry A.data c r * x.getD r 0 + acc) (res.getD c 0)))
    (fun t res => res.length = A.cols ∧
      (∀ c < t, res.getD c 0
        = ∑ r ∈ Finset.range A.rows, getEntry A.data c r * x.getD r 0) ∧
      (∀ c, t ≤ c → c < A.cols → res.getD c 0 = 0))
    (List.replicate A.cols 0)
    ⟨by simp, fun c hc => absurd hc (by omega), fun c _ hc2 => by
      rw [List.getD_eq_getElem?_getD, List.getElem?_replicate, if_pos hc2]
      rfl⟩
    ?_
  · obtain ⟨hlen, hdone, _⟩ := key
    apply List.ext_getElem (by simpa using hlen)
    intro i h1 h2
    have hi : i < A.cols := by simpa using h2
    have := hdone i hi
    rw [List.getD_eq_getElem?_getD, List.getElem?_eq_getElem h1] at this
    simpa using this
  · rintro t res ht ⟨hlen, hdone, hzero⟩
    have htlen : t < res.length := by omega
    refine ⟨by simpa using hlen, ?_, ?_⟩
    · intro c hc
      by_cases hct : c = t
      · subst hct
        rw [getD_set_self htlen, foldl_add_sum, hzero c (Nat.le_refl c) (by omega), add_zero]
      · rw [getD_set_ne hct]
        exact hdone c (by omega)
    · intro c hc1 hc2
      rw [getD_set_ne (by omega)]
      exact hzero c (by omega) hc2

/-- C2 is false as stated: the claim requires mul_vec to fail exactly when the
column count of A differs from the length of x, but for the 3 by 2 matrix with
rows (1,4), (2,5), (3,6) and a vector of length 3 the column count is 2, yet
the call succeeds (the source checks the row count) and returns the transpose
product (50, 122). -/
theorem mul_vec_no_column_check :
    (Matrix.mk [[1, 2, 3], [4, 5, 6]]).cols ≠ ([7, 8, 9] : List ℚ).length ∧
    mul_vec ⟨[[1, 2, 3], [4, 5, 6]]⟩ [7, 8, 9] = .ok [50, 122] :=
  ⟨by decide, by with_unfolding_all rfl⟩

/-- C2 (amended): mul_vec fails with the shape-mismatch error exactly when the
row count of A differs from the length of x; otherwise it returns the vector y
of length cols(A) with y[c] equal to the sum over r of A[r][c] * x[r], i.e. the
transpose product. -/
theorem mul_vec_semantics : ∀ (A : Matrix) (x : List ℚ),
    (mul_vec A x = .error .shapeMismatch ↔ A.rows ≠ x.length) ∧
    (A.rows = x.length →
      ∃ y, mul_vec A x = .ok y ∧ y.length = A.cols ∧
        ∀ c < A.cols, y.getD c 0
          = ∑ r ∈ Finset.range A.rows, getEntry A.data c r * x.getD r 0) := by
  intro A x
  constructor
  · constructor
    · intro hE hne
      rw [mul_vec_ok hne] at hE
      exact absurd hE (by simp)
    · intro hne
      unfold mul_vec
      rw [if_pos (by simpa using hne)]
  · intro h
    refine ⟨_, mul_vec_ok h, by simp, ?_⟩
    intro c hc
    rw [List.getD_eq_getElem?_getD, List.getElem?_eq_getElem (by simpa using hc)]
    simp

/-- C2 witness: the amended semantics at the concrete 3 by 2 matrix and length
3 vector of the tests. -/
theorem mul_vec_semantics_witness :
    ∃ y, mul_vec ⟨[[1, 2, 3], [4, 5, 6]]⟩ [7, 8, 9] = .ok y ∧
      y.length = (Matrix.mk [[1, 2, 3], [4, 5, 6]]).cols ∧
      ∀ c < (Matrix.mk [[1, 2, 3], [4, 5, 6]]).cols, y.getD c 0
        = ∑ r ∈ Finset.range (Matrix.mk [[1, 2, 3], [4, 5, 6]]).rows,
            getEntry [[1, 2, 3], [4, 5, 6]] c r * ([7, 8, 9] : List ℚ).getD r 0 :=
  (mul_vec_semantics ⟨[[1, 2, 3], [4, 5, 6]]⟩ [7, 8, 9]).2 rfl

/- Determinant correctness (claim C5).  The n >= 3 branch operates on the
column list: swapping two outer elements swaps two columns of the matrix, and
the inner elimination adds a multiple of column i to column j at row indices
k in [i, n).  We show the loop keeps the matrix column-equivalent to the input
and ends lower triangular, so the signed diagonal product is the determinant. -/

theorem getEntry_swapCols {d : Data} {i j : ℕ} (hi : i < d.length) (hj : j < d.length)
    (c r : ℕ) :
    getEntry (swapCols d i j) c r
      = getEntry d (if c = i then j else if c = j then i else c) r := by
  unfold swapCols
  by_cases hcj : c = j
  · rw [hcj, getEntry_set_self (by simpa using hj)]
    by_cases hji : j = i
    · rw [if_pos hji, hji]
      rfl
    · rw [if_neg hji, if_pos rfl]
      rfl
  · rw [getEntry_set_ne hcj]
    by_cases hci : c = i
    · rw [hci, getEntry_set_self hi, if_pos rfl]
      rfl
    · rw [getEntry_set_ne hci, if_neg hci, if_neg hcj]

theorem dims_swapCols {d : Data} {n : ℕ} (hd : dims d n n) {i j : ℕ}
    (hi : i < n) (hj : j < n) : dims (swapCols d i j) n n := by
  have hdl := hd.1
  constructor
  · simp [swapCols, hdl]
  · intro col hcol
    unfold swapCols at hcol
    rcases List.mem_or_eq_of_mem_set hcol with h1 | h1
    · rcases List.mem_or_eq_of_mem_set h1 with h2 | h2
      · exact hd.2 _ h2
      · rw [h2]
        exact col_length hd (by omega)
    · rw [h1]
      exact col_length hd (by omega)

theorem getD_colSubFrom {cj ci : List ℚ} {n : ℕ} (hcj : cj.length = n) (f : ℚ) (i : ℕ) :
    ((colSubFrom cj ci f i n).length = n) ∧
      ∀ k, (colSubFrom cj ci f i n).getD k 0
        = if i ≤ k ∧ k < n then cj.getD k 0 - f * ci.getD k 0 else cj.getD k 0 := by
  unfold colSubFrom
  by_cases hin : i ≤ n
  · have key := range'_foldl_inv
      (fun col k => col.set k (col.getD k 0 - f * ci.getD k 0))
      (fun t col => col.length = n ∧
        (∀ k, i ≤ k → k < t → col.getD k 0 = cj.getD k 0 - f * ci.getD k 0) ∧
        (∀ k, k < i ∨ t ≤ k → col.getD k 0 = cj.getD k 0))
      (n - i) i cj ⟨hcj, fun k hk1 hk2 => absurd hk2 (by omega), fun k _ => rfl⟩ ?_
    · have hn : i + (n - i) = n := by omega
      rw [hn] at key
      obtain ⟨hlen, hmid, hout⟩ := key
      refine ⟨hlen, fun k => ?_⟩
      by_cases hk : i ≤ k ∧ k < n
      · rw [if_pos hk]
        exact hmid k hk.1 hk.2
      · rw [if_neg hk]
        exact hout k (by omega)
    · rintro t col ht1 ht2 ⟨hlen, hmid, hout⟩
      have htl : t < col.length := by omega
      refine ⟨by simpa using hlen, ?_, ?_⟩
      · intro k hk1 hk2
        by_cases hkt : k = t
        · subst hkt
          rw [getD_set_self htl, hout k (Or.inr (Nat.le_refl k))]
        · rw [getD_set_ne hkt]
          exact hmid k hk1 (by omega)
      · intro k hk
        rw [getD_set_ne (by omega)]
        exact hout k (by omega)
  · have hzero : n - i = 0 := by omega
    rw [hzero]
    exact ⟨hcj, fun k => by rw [if_neg (by omega)]; rfl⟩

theorem getEntry_detElimCol {dd : Data} {n : ℕ} (hd : dims dd n n) {i j : ℕ}
    (hj : j < n) (c r : ℕ) :
    getEntry (detElimCol dd i j n) c r
      = if c = j ∧ i ≤ r ∧ r < n
        then getEntry dd j r - getEntry dd j i / getEntry dd i i * getEntry dd i r
        else getEntry dd c r := by
  have hjl : j < dd.length := by have := hd.1; omega
  unfold detElimCol
  by_cases hcj : c = j
  · rw [hcj, getEntry_set_self hjl]
    obtain ⟨hlen, hch⟩ := getD_colSubFrom (col_length hd hjl)
      (getEntry dd j i / getEntry dd i i) i
    rw [hch r]
    by_cases hr : i ≤ r ∧ r < n
    · rw [if_pos hr, if_pos ⟨rfl, hr⟩]
      rfl
    · rw [if_neg hr, if_neg (by tauto)]
      rfl
  · rw [getEntry_set_ne hcj, if_neg (by tauto)]

theorem dims_detElimCol {dd : Data} {n : ℕ} (hd : dims dd n n) {j : ℕ} (hj : j < n)
    (i : ℕ) : dims (detElimCol dd i j n) n n := by
  have hjl : j < dd.length := by have := hd.1; omega
  exact dims_set hd (getD_colSubFrom (col_length hd hjl)
    (getEntry dd j i / getEntry dd i i) i).1

theorem findSwapCol_some {d : Data} {i n j : ℕ} (h : findSwapCol d i n = some j) :
    i < j ∧ j < n ∧ getEntry d j i ≠ 0 := by
  unfold findSwapCol at h
  have hmem := List.mem_of_find?_eq_some h
  have hp := List.find?_some h
  rw [List.mem_range'_1] at hmem
  refine ⟨by omega, by omega, ?_⟩
  simpa using hp

theorem findSwapCol_none {d : Data} {i n : ℕ} (h : findSwapCol d i n = none) :
    ∀ j, i < j → j < n → getEntry d j i = 0 := by
  unfold findSwapCol at h
  rw [List.find?_eq_none] at h
  intro j hj1 hj2
  have hm := h j (by rw [List.mem_range'_1]; omega)
  simpa using hm

theorem negOnePow (k : ℕ) : ((-1 : ℚ)) ^ k = if k % 2 = 0 then 1 else -1 := by
  rcases Nat.even_or_odd k with h | h
  · rw [h.neg_one_pow, if_pos (Nat.even_iff.1 h)]
  · rw [h.neg_one_pow, if_neg (by rw [Nat.odd_iff] at h; omega)]

theorem foldl_mul_prod (g : ℕ → ℚ) :
    ∀ (n : ℕ) (init : ℚ),
      (List.range n).foldl (fun acc i => acc * g i) init
        = init * ∏ i ∈ Finset.range n, g i := by
  intro n
  induction n with
  | zero => intro init; simp
  | succ m ih =>
    intro init
    rw [List.range_succ, List.foldl_append, ih init, Finset.prod_range_succ]
    show (init * ∏ i ∈ Finset.range m, g i) * g m = _
    ring

/- Bridges from column data to Mathlib matrices. -/

theorem toM_apply (n : ℕ) (d : Data) (i j : Fin n) : toM n d i j = getEntry d j i := rfl

theorem toM_swapCols {d : Data} {n : ℕ} (hd : dims d n n) {i j : ℕ}
    (hi : i < n) (hj : j < n) :
    toM n (swapCols d i j)
      = (toM n d).submatrix id (Equiv.swap ⟨i, hi⟩ ⟨j, hj⟩) := by
  have hdl := hd.1
  ext r c
  rw [Matrix.submatrix_apply]
  show getEntry (swapCols d i j) c r = toM n d r (Equiv.swap ⟨i, hi⟩ ⟨j, hj⟩ c)
  rw [getEntry_swapCols (by omega) (by omega)]
  have hidx : ((Equiv.swap (⟨i, hi⟩ : Fin n) ⟨j, hj⟩ c) : ℕ)
      = if (c : ℕ) = i then j else if (c : ℕ) = j then i else c := by
    rcases c with ⟨cv, hcv⟩
    rw [Equiv.swap_apply_def]
    by_cases h1 : cv = i
    · rw [if_pos (Fin.ext h1), if_pos h1]
    · rw [if_neg (fun hEq => h1 (congrArg Fin.val hEq)), if_neg h1]
      by_cases h2 : cv = j
      · rw [if_pos (Fin.ext h2), if_pos h2]
      · rw [if_neg (fun hEq => h2 (congrArg Fin.val hEq)), if_neg h2]
  show getEntry d (if (c : ℕ) = i then j else if (c : ℕ) = j then i else (c : ℕ)) r
      = getEntry d ((Equiv.swap (⟨i, hi⟩ : Fin n) ⟨j, hj⟩ c) : ℕ) r
  rw [hidx]

theorem det_toM_swapCols {d : Data} {n : ℕ} (hd : dims d n n) {i j : ℕ}
    (hi : i < n) (hj : j < n) (hij : i ≠ j) :
    (toM n (swapCols d i j)).det = -(toM n d).det := by
  rw [toM_swapCols hd hi hj, Matrix.det_permute' _ (toM n d),
    Equiv.Perm.sign_swap (by simpa [Fin.ext_iff] using hij)]
  simp

theorem toM_detElimCol {dd : Data} {n : ℕ} (hd : dims dd n n) {i j : ℕ}
    (hi : i < n) (hj : j < n)
    (hzero : ∀ r, r < i → getEntry dd i r = 0) :
    toM n (detElimCol dd i j n)
      = (toM n dd).updateColumn ⟨j, hj⟩
          (fun k => toM n dd k ⟨j, hj⟩
            + (-(getEntry dd j i / getEntry dd i i)) • toM n dd k ⟨i, hi⟩) := by
  ext r c
  rw [Matrix.updateColumn_apply]
  show getEntry (detElimCol dd i j n) c r = _
  rw [getEntry_detElimCol hd hj]
  by_cases hcj : (c : ℕ) = j
  · rw [if_pos (Fin.ext hcj)]
    by_cases hir : i ≤ (r : ℕ)
    · rw [if_pos ⟨hcj, hir, r.isLt⟩]
      show getEntry dd j r - getEntry dd j i / getEntry dd i i * getEntry dd i r
          = getEntry dd j r + -(getEntry dd j i / getEntry dd i i) * getEntry dd i r
      ring
    · rw [if_neg (by tauto)]
      show getEntry dd c r
          = getEntry dd j r + -(getEntry dd j i / getEntry dd i i) * getEntry dd i r
      rw [hzero r (by omega), hcj]
      ring
  · rw [if_neg (by tauto), if_neg (fun hEq => hcj (congrArg Fin.val hEq))]
    rfl

theorem det_toM_detElimCol {dd : Data} {n : ℕ} (hd : dims dd n n) {i j : ℕ}
    (hi : i < n) (hj : j < n) (hij : i ≠ j)
    (hzero : ∀ r, r < i → getEntry dd i r = 0) :
    (toM n (detElimCol dd i j n)).det = (toM n dd).det := by
  rw [toM_detElimCol hd hi hj hzero]
  exact Matrix.det_updateColumn_add_smul_self (toM n dd)
    (by simpa [Fin.ext_iff] using fun hEq => hij (hEq.symm)) _

/- The elimination fold of one determinant step: the determinant of the tracked
matrix is unchanged, previously created zeros survive, and row i is zeroed to
the right of the diagonal. -/

theorem detElim_fold {n i : ℕ} (hi : i < n) {d1 : Data} (hd1 : dims d1 n n)
    (hzUp : ∀ r, r < i → ∀ c, r < c → c < n → getEntry d1 c r = 0)
    (hpiv0 : getEntry d1 i i = 0 → ∀ c, i < c → c < n → getEntry d1 c i = 0) :
    dims ((List.range' (i + 1) (n - (i + 1))).foldl
        (fun dd j => detElimCol dd i j n) d1) n n ∧
    (toM n ((List.range' (i + 1) (n - (i + 1))).foldl
        (fun dd j => detElimCol dd i j n) d1)).det = (toM n d1).det ∧
    (∀ r, r < i + 1 → ∀ c, r < c → c < n →
      getEntry ((List.range' (i + 1) (n - (i + 1))).foldl
        (fun dd j => detElimCol dd i j n) d1) c r = 0) := by
  have key := range'_foldl_inv (fun dd j => detElimCol dd i j n)
    (fun j dd => dims dd n n ∧ (toM n dd).det = (toM n d1).det ∧
      (∀ c r2, c ≤ i ∨ j ≤ c → getEntry dd c r2 = getEntry d1 c r2) ∧
      (∀ c, i < c → c < j → getEntry dd c i = 0) ∧
      (∀ r2, r2 < i → ∀ c, r2 < c → c < n → getEntry dd c r2 = 0))
    (n - (i + 1)) (i + 1) d1
    ⟨hd1, rfl, fun c r2 _ => rfl, fun c hc1 hc2 => absurd hc2 (by omega), hzUp⟩
    ?_
  · have hn : i + 1 + (n - (i + 1)) = n := by omega
    rw [hn] at key
    obtain ⟨h1, h2, _, h4, h5⟩ := key
    refine ⟨h1, h2, ?_⟩
    intro r hr c hc1 hc2
    by_cases hri : r < i
    · exact h5 r hri c hc1 hc2
    · have hrieq : r = i := by omega
      subst hrieq
      exact h4 c hc1 hc2
  · rintro j dd hj1 hj2 ⟨hdd, hdet2, hunch, hzi, hzUp2⟩
    have hjn : j < n := by omega
    have hij : i ≠ j := by omega
    have char := getEntry_detElimCol hdd hjn (i := i)
    refine ⟨dims_detElimCol hdd hjn i, ?_, ?_, ?_, ?_⟩
    · rw [det_toM_detElimCol hdd hi hjn hij (fun r2 hr2 => hzUp2 r2 hr2 i hr2 hi)]
      exact hdet2
    · intro c r2 hc
      rw [char c r2, if_neg ?_]
      · exact hunch c r2 (by rcases hc with hc | hc <;> omega)
      · rintro ⟨rfl, _, _⟩
        rcases hc with hc | hc <;> omega
    · intro c hc1 hc2
      by_cases hcj : c = j
      · subst hcj
        rw [char c i, if_pos ⟨rfl, Nat.le_refl i, hi⟩]
        have hpivEq : getEntry dd i i = getEntry d1 i i := hunch i i (Or.inl (Nat.le_refl i))
        by_cases hp : getEntry d1 i i = 0
        · have hy : getEntry dd c i = getEntry d1 c i := hunch c i (Or.inr (Nat.le_refl c))
          rw [hy, hpiv0 hp c hc1 hjn, hpivEq, hp]
          simp
        · have hp2 : getEntry dd i i ≠ 0 := by rw [hpivEq]; exact hp
          rw [div_mul_cancel₀ _ hp2, sub_self]
      · rw [char c i, if_neg (by tauto)]
        exact hzi c hc1 (by omega)
    · intro r2 hr2 c hc1 hc2
      rw [char c r2, if_neg (by rintro ⟨_, hh, _⟩; omega)]
      exact hzUp2 r2 hr2 c hc1 hc2

/- One full determinant step: optional column swap (flipping the determinant
and counting the swap) followed by the elimination fold. -/

theorem detStep_inv {n : ℕ} {d0 : Data} {i : ℕ} (hi : i < n) (d : Data) (swaps : ℕ)
    (hd : dims d n n)
    (hz : ∀ r, r < i → ∀ c, r < c → c < n → getEntry d c r = 0)
    (hdet : (toM n d).det = (-1 : ℚ) ^ swaps * (toM n d0).det) :
    dims (detStep n (d, swaps) i).1 n n ∧
    (∀ r, r < i + 1 → ∀ c, r < c → c < n → getEntry (detStep n (d, swaps) i).1 c r = 0) ∧
    (toM n (detStep n (d, swaps) i).1).det
      = (-1 : ℚ) ^ (detStep n (d, swaps) i).2 * (toM n d0).det := by
  by_cases hp : getEntry d i i = 0
  · rcases hfs : findSwapCol d i n with _ | j
    · have hstep : detStep n (d, swaps) i
          = ((List.range' (i + 1) (n - (i + 1))).foldl
              (fun dd j => detElimCol dd i j n) d, swaps) := by
        simp only [detStep, if_pos hp, hfs]
      rw [hstep]
      obtain ⟨h1, h2, h3⟩ := detElim_fold hi hd hz (fun _ => findSwapCol_none hfs)
      exact ⟨h1, h3, by rw [h2]; exact hdet⟩
    · obtain ⟨hij, hjn, hne⟩ := findSwapCol_some hfs
      have hstep : detStep n (d, swaps) i
          = ((List.range' (i + 1) (n - (i + 1))).foldl
              (fun dd j2 => detElimCol dd i j2 n) (swapCols d i j), swaps + 1) := by
        simp only [detStep, if_pos hp, hfs]
      rw [hstep]
      have hdl := hd.1
      have hd1 : dims (swapCols d i j) n n := dims_swapCols hd hi hjn
      have hz1 : ∀ r, r < i → ∀ c, r < c → c < n → getEntry (swapCols d i j) c r = 0 := by
        intro r hr c hc1 hc2
        rw [getEntry_swapCols (by omega) (by omega)]
        split_ifs with h1 h2
        · exact hz r hr j (by omega) hjn
        · exact hz r hr i (by omega) hi
        · exact hz r hr c hc1 hc2
      have hpiv1 : getEntry (swapCols d i j) i i ≠ 0 := by
        rw [getEntry_swapCols (by omega) (by omega), if_pos rfl]
        exact hne
      obtain ⟨h1, h2, h3⟩ := detElim_fold hi hd1 hz1 (fun h0 => absurd h0 hpiv1)
      refine ⟨h1, h3, ?_⟩
      rw [h2, det_toM_swapCols hd hi hjn (by omega), hdet, pow_succ]
      ring
  · have hstep : detStep n (d, swaps) i
        = ((List.range' (i + 1) (n - (i + 1))).foldl
            (fun dd j => detElimCol dd i j n) d, swaps) := by
      simp only [detStep, if_neg hp]
    rw [hstep]
    obtain ⟨h1, h2, h3⟩ := detElim_fold hi hd hz (fun h0 => absurd h0 hp)
    exact ⟨h1, h3, by rw [h2]; exact hdet⟩

/-- The Gaussian elimination branch of determinant computes the determinant of
the stored matrix, for every size n (including n = 0). -/
theorem detGauss_eq_det {n : ℕ} {d : Data} (hd : dims d n n) :
    detGauss d n = (toM n d).det := by
  have key := range_foldl_inv n (detStep n)
    (fun i st => dims st.1 n n ∧
      (∀ r, r < i → ∀ c, r < c → c < n → getEntry st.1 c r = 0) ∧
      (toM n st.1).det = (-1 : ℚ) ^ st.2 * (toM n d).det)
    (d, 0)
    ⟨hd, fun r hr => absurd hr (by omega), by simp⟩
    (fun j st hj hQ => by
      obtain ⟨s1, s2⟩ := st
      exact detStep_inv hj s1 s2 hQ.1 hQ.2.1 hQ.2.2)
  obtain ⟨hdF, hzF, hdetF⟩ := key
  show (List.range n).foldl
      (fun acc i => acc * getEntry ((List.range n).foldl (detStep n) (d, 0)).1 i i)
      (if ((List.range n).foldl (detStep n) (d, 0)).2 % 2 = 0 then 1 else -1)
    = (toM n d).det
  set FIN := (List.range n).foldl (detStep n) (d, 0) with hFIN
  rw [foldl_mul_prod]
  have htri : (toM n FIN.1).BlockTriangular OrderDual.toDual := by
    intro a b hab
    have hlt : (a : ℕ) < (b : ℕ) := by simpa using hab
    exact hzF a a.isLt b hlt b.isLt
  have hdiag := Matrix.det_of_lowerTriangular (toM n FIN.1) htri
  have hprod : ∏ i : Fin n, toM n FIN.1 i i
      = ∏ i ∈ Finset.range n, getEntry FIN.1 i i :=
    Fin.prod_univ_eq_prod_range (fun k => getEntry FIN.1 k k) n
  have hsq : ((-1 : ℚ)) ^ FIN.2 * ((-1 : ℚ)) ^ FIN.2 = 1 := by
    rw [← mul_pow]
    norm_num
  calc (if FIN.2 % 2 = 0 then (1 : ℚ) else -1) * ∏ i ∈ Finset.range n, getEntry FIN.1 i i
      = (-1 : ℚ) ^ FIN.2 * ∏ i ∈ Finset.range n, getEntry FIN.1 i i := by rw [negOnePow]
    _ = (-1 : ℚ) ^ FIN.2 * ∏ i : Fin n, toM n FIN.1 i i := by rw [hprod]
    _ = (-1 : ℚ) ^ FIN.2 * (toM n FIN.1).det := by rw [hdiag]
    _ = (-1 : ℚ) ^ FIN.2 * ((-1 : ℚ) ^ FIN.2 * (toM n d).det) := by rw [hdetF]
    _ = (toM n d).det := by rw [← mul_assoc, hsq, one_mul]

theorem square_rows_eq_cols {A : Matrix} (hsq : A.is_square = true) : A.rows = A.cols := by
  simpa [Matrix.is_square] using hsq

theorem WF_square_dims {A : Matrix} (hWF : WF A) (hsq : A.is_square = true) :
    dims A.data A.rows A.rows := by
  refine ⟨?_, hWF⟩
  have := square_rows_eq_cols hsq
  show A.cols = A.rows
  omega

/-- The determinant operation returns the mathematical determinant of the
stored matrix on every square well-formed input (closed forms for orders 1 and
2, Gaussian elimination otherwise). -/
theorem determinant_eq_det {A : Matrix} (hWF : WF A) (hsq : A.is_square = true) :
    determinant A = .ok ((toM A.rows A.data).det) := by
  have hdims : dims A.data A.rows A.rows := WF_square_dims hWF hsq
  unfold determinant
  rw [if_neg (by simp [hsq])]
  by_cases h1 : A.rows = 1
  · rw [if_pos h1]
    have hx : (toM A.rows A.data).det = getEntry A.data 0 0 := by
      rw [h1, Matrix.det_fin_one]
      rfl
    rw [hx]
  · rw [if_neg h1]
    by_cases h2 : A.rows = 2
    · rw [if_pos h2]
      have hx : (toM A.rows A.data).det
          = getEntry A.data 0 0 * getEntry A.data 1 1
            - getEntry A.data 1 0 * getEntry A.data 0 1 := by
        rw [h2, Matrix.det_fin_two]
        rfl
      rw [hx]
    · rw [if_neg h2, detGauss_eq_det hdims]

/- Characterisation of transpose. -/

theorem getD_replicate_zero (rows r : ℕ) : (List.replicate rows (0 : ℚ)).getD r 0 = 0 := by
  rw [List.getD_eq_getElem?_getD, List.getElem?_replicate]
  split <;> rfl

theorem dims_mkMatrixData (cols rows : ℕ) : dims (mkMatrixData cols rows) cols rows := by
  constructor
  · simp [mkMatrixData]
  · intro col hcol
    rw [List.eq_of_mem_replicate hcol]
    simp

theorem getEntry_mkMatrixData (cols rows c r : ℕ) : getEntry (mkMatrixData cols rows) c r = 0 := by
  unfold getEntry mkMatrixData
  by_cases hc : c < cols
  · rw [getDCol_eq_getElem (by simpa using hc), List.getElem_replicate]
    exact getD_replicate_zero rows r
  · rw [getDCol_oob (by simpa using hc)]
    rfl

theorem getEntry_setE {d : Data} {cols rows : ℕ} (hd : dims d cols rows) {c r : ℕ}
    (hc : c < cols) (hr : r < rows) (v : ℚ) (c2 r2 : ℕ) :
    getEntry (setE d c r v) c2 r2 = if c2 = c ∧ r2 = r then v else getEntry d c2 r2 := by
  unfold setE
  have hcl : c < d.length := by have := hd.1; omega
  by_cases hc2 : c2 = c
  · rw [hc2, getEntry_set_self hcl]
    by_cases hr2 : r2 = r
    · rw [hr2, getD_set_self (by rw [col_length hd hcl]; exact hr), if_pos ⟨rfl, rfl⟩]
    · rw [getD_set_ne hr2, if_neg (by tauto)]
      rfl
  · rw [getEntry_set_ne hc2, if_neg (by tauto)]

theorem dims_setE {d : Data} {cols rows : ℕ} (hd : dims d cols rows) {c : ℕ}
    (hc : c < cols) (r : ℕ) (v : ℚ) : dims (setE d c r v) cols rows := by
  have hcl : c < d.length := by have := hd.1; omega
  exact dims_set hd (by simpa using col_length hd hcl)

theorem transpose_entries (A : Matrix) :
    dims (transpose A).data A.rows A.cols ∧
    ∀ cr rr, cr < A.rows → rr < A.cols →
      getEntry (transpose A).data cr rr = getEntry A.data rr cr := by
  have key := range_foldl_inv A.cols
    (fun res c => (List.range A.rows).foldl
      (fun res2 r => setE res2 r c (getEntry A.data c r)) res)
    (fun t res => dims res A.rows A.cols ∧
      ∀ cr rr, cr < A.rows → rr < A.cols →
        getEntry res cr rr = if rr < t then getEntry A.data rr cr else 0)
    (mkMatrixData A.rows A.cols)
    ⟨dims_mkMatrixData _ _,
      fun cr rr h1 h2 => by rw [if_neg (by omega), getEntry_mkMatrixData]⟩
    ?_
  · obtain ⟨h1, h2⟩ := key
    exact ⟨h1, fun cr rr hcr hrr => (h2 cr rr hcr hrr).trans (if_pos hrr)⟩
  · rintro t res ht ⟨hres, hent⟩
    have inner := range_foldl_inv A.rows
      (fun res2 r => setE res2 r t (getEntry A.data t r))
      (fun s res2 => dims res2 A.rows A.cols ∧
        ∀ cr rr, cr < A.rows → rr < A.cols →
          getEntry res2 cr rr
            = if rr < t then getEntry A.data rr cr
              else if rr = t ∧ cr < s then getEntry A.data t cr else 0)
      res
      ⟨hres, fun cr rr h1 h2 => by
        rw [hent cr rr h1 h2]
        by_cases h : rr < t
        · rw [if_pos h, if_pos h]
        · rw [if_neg h, if_neg h, if_neg (by rintro ⟨_, hh⟩; omega)]⟩
      ?_
    · obtain ⟨h1, h2⟩ := inner
      refine ⟨h1, fun cr rr hcr hrr => ?_⟩
      rw [h2 cr rr hcr hrr]
      by_cases h : rr < t
      · rw [if_pos h, if_pos (by omega)]
      · by_cases h2t : rr = t
        · rw [if_neg h, if_pos ⟨h2t, hcr⟩, if_pos (by omega), h2t]
        · rw [if_neg h, if_neg (by tauto), if_neg (by omega)]
    · rintro s res2 hs ⟨hres2, hent2⟩
      refine ⟨dims_setE hres2 hs t _, ?_⟩
      intro cr rr hcr hrr
      rw [getEntry_setE hres2 hs ht _ cr rr]
      by_cases hcs : cr = s ∧ rr = t
      · rw [if_pos hcs, if_neg (by omega), if_pos ⟨hcs.2, by omega⟩, hcs.1]
      · rw [if_neg hcs, hent2 cr rr hcr hrr]
        by_cases h : rr < t
        · rw [if_pos h, if_pos h]
        · rw [if_neg h, if_neg h]
          by_cases h2t : rr = t
          · by_cases h3 : cr < s
            · rw [if_pos ⟨h2t, h3⟩, if_pos ⟨h2t, by omega⟩]
            · rw [if_neg (by tauto), if_neg (by rintro ⟨hh1, hh2⟩; exact hcs ⟨by omega, hh1⟩)]
          · rw [if_neg (by tauto), if_neg (by tauto)]

theorem rows_of_dims {A : Matrix} {c r : ℕ} (hd : dims A.data c r) (hc : 0 < c) :
    A.rows = r := by
  rcases hA : A.data with _ | ⟨hd0, tl⟩
  · rw [hA] at hd
    have := hd.1
    simp at this
    omega
  · show (match A.data with | [] => 0 | c :: _ => c.length) = r
    rw [hA]
    exact hd.2 hd0 (by rw [hA]; exact List.mem_cons_self hd0 tl)

/-- C5: for every square well-formed matrix, determinant(A) equals
determinant(transpose(A)): both compute the mathematical determinant exactly,
and the determinant is invariant under transposition. -/
theorem determinant_transpose_eq : ∀ A : Matrix, WF A → A.is_square = true →
    determinant A = determinant (transpose A) := by
  intro A hWF hsq
  have hrc : A.rows = A.cols := square_rows_eq_cols hsq
  obtain ⟨hdT, hentT⟩ := transpose_entries A
  have hTcols : (transpose A).cols = A.rows := hdT.1
  have hTrows : (transpose A).rows = A.rows := by
    rcases Nat.eq_zero_or_pos A.rows with h0 | hpos
    · rw [h0]
      have hlen : (transpose A).data.length = 0 := by rw [hdT.1, h0]
      rcases hT : (transpose A).data with _ | ⟨c0, tl⟩
      · show (match (transpose A).data with | [] => 0 | c :: _ => c.length) = 0
        rw [hT]
      · rw [hT] at hlen
        simp at hlen
    · rw [rows_of_dims hdT hpos, hrc]
  have hWT : WF (transpose A) := by
    intro col hcol
    rw [hdT.2 col hcol, hTrows, hrc]
  have hsqT : (transpose A).is_square = true := by
    simp [Matrix.is_square, hTrows, hTcols]
  rw [determinant_eq_det hWF hsq, determinant_eq_det hWT hsqT]
  congr 1
  rw [hTrows]
  have hMT : toM A.rows (transpose A).data = (toM A.rows A.data).transpose := by
    ext i j
    show getEntry (transpose A).data j i = getEntry A.data i j
    exact hentT j i j.isLt (by have := i.isLt; omega)
  rw [hMT, Matrix.det_transpose]

/-- C5 witness: the square 3 by 3 matrix of the test suite (determinant -174)
satisfies the hypotheses, so its determinant equals that of its transpose. -/
theorem determinant_transpose_eq_witness :
    WF ⟨[[8, 4, 7], [5, 7, 6], [-2, 20, 1]]⟩ ∧
    determinant ⟨[[8, 4, 7], [5, 7, 6], [-2, 20, 1]]⟩
      = determinant (transpose ⟨[[8, 4, 7], [5, 7, 6], [-2, 20, 1]]⟩) :=
  ⟨by unfold WF; decide,
   determinant_transpose_eq ⟨[[8, 4, 7], [5, 7, 6], [-2, 20, 1]]⟩
     (by unfold WF; decide) (by decide)⟩

/- Gauss-Jordan inverse (claims C4 and C6): supporting characterisations. -/

theorem getEntry_row_oob {d : Data} {cols rows : ℕ} (hd : dims d cols rows) {r : ℕ}
    (hr : rows ≤ r) (c : ℕ) : getEntry d c r = 0 := by
  by_cases hc : c < d.length
  · unfold getEntry
    exact getD_oob (by rw [col_length hd hc]; exact hr)
  · exact getEntry_oob (by omega) r

theorem getD_normCol (col : List ℚ) (rows r : ℕ) :
    (normCol col rows).getD r 0 = if r < rows then col.getD r 0 else 0 := by
  unfold normCol
  by_cases hr : r < rows
  · rw [if_pos hr, List.getD_eq_getElem?_getD, List.getElem?_map]
    rw [List.getElem?_range hr]
    rfl
  · rw [if_neg hr, getD_oob (by simpa using hr)]

theorem length_normCol (col : List ℚ) (rows : ℕ) : (normCol col rows).length = rows := by
  simp [normCol]

theorem hconcatD_dims (a b : Data) (rows : ℕ) :
    dims (hconcatD a b rows) (a.length + b.length) rows := by
  constructor
  · simp [hconcatD]
  · intro col hcol
    obtain ⟨c0, _, rfl⟩ := List.mem_map.1 hcol
    exact length_normCol c0 rows

theorem getEntry_hconcatD (a b : Data) (rows c r : ℕ) :
    getEntry (hconcatD a b rows) c r
      = if r < rows then
          (if c < a.length then getEntry a c r else getEntry b (c - a.length) r)
        else 0 := by
  by_cases hc : c < a.length + b.length
  · have hc2 : c < (a ++ b).length := by simpa using hc
    rw [hconcatD, getEntry_map _ hc2, getD_normCol]
    by_cases hr : r < rows
    · rw [if_pos hr, if_pos hr]
      by_cases hca : c < a.length
      · rw [if_pos hca]
        show ((a ++ b).getD c []).getD r 0 = (a.getD c []).getD r 0
        congr 1
        rw [getDCol_eq_getElem hc2, getDCol_eq_getElem hca]
        exact List.getElem_append_left hca
      · rw [if_neg hca]
        show ((a ++ b).getD c []).getD r 0 = (b.getD (c - a.length) []).getD r 0
        congr 1
        rw [getDCol_eq_getElem hc2, getDCol_eq_getElem (by omega)]
        exact List.getElem_append_right (by omega)
    · rw [if_neg hr, if_neg hr]
  · have h0 : getEntry (hconcatD a b rows) c r = 0 := by
      apply getEntry_oob
      have := (hconcatD_dims a b rows).1
      omega
    rw [h0]
    by_cases hr : r < rows
    · rw [if_pos hr, if_neg (by omega), getEntry_oob (by omega)]
    · rw [if_neg hr]

theorem identityData_spec (n : ℕ) :
    dims (identityData n) n n ∧
    ∀ c r, c < n → r < n → getEntry (identityData n) c r = if r = c then 1 else 0 := by
  have key := range_foldl_inv n (fun d i => setE d i i 1)
    (fun t d => dims d n n ∧
      ∀ c r, c < n → r < n → getEntry d c r = if r = c ∧ c < t then 1 else 0)
    (mkMatrixData n n)
    ⟨dims_mkMatrixData n n, fun c r _ _ => by
      rw [getEntry_mkMatrixData, if_neg (by rintro ⟨_, hh⟩; omega)]⟩
    ?_
  · obtain ⟨h1, h2⟩ := key
    refine ⟨h1, fun c r hc hr => ?_⟩
    show getEntry ((List.range n).foldl (fun d i => setE d i i 1) (mkMatrixData n n)) c r
        = if r = c then 1 else 0
    rw [h2 c r hc hr]
    by_cases h : r = c
    · rw [if_pos ⟨h, hc⟩, if_pos h]
    · rw [if_neg (by tauto), if_neg h]
  · rintro t d ht ⟨hd, hent⟩
    refine ⟨dims_setE hd ht t 1, fun c r hc hr => ?_⟩
    rw [getEntry_setE hd ht ht 1 c r]
    by_cases h : c = t ∧ r = t
    · rw [if_pos h, if_pos ⟨by omega, by omega⟩]
    · rw [if_neg h, hent c r hc hr]
      by_cases h2 : r = c ∧ c < t
      · rw [if_pos h2, if_pos ⟨h2.1, by omega⟩]
      · rw [if_neg h2, if_neg ?_]
        rintro ⟨hh1, hh2⟩
        rcases Nat.lt_or_ge c t with h3 | h3
        · exact h2 ⟨hh1, h3⟩
        · have hct : c = t := by omega
          exact h ⟨hct, by omega⟩

theorem gjFindPivot_spec {d : Data} {i n : ℕ} (hi : i < n) :
    (i ≤ gjFindPivot d i n ∧ gjFindPivot d i n < n) ∧
    ∀ j, i ≤ j → j < n →
      absQ (getEntry d i j) ≤ absQ (getEntry d i (gjFindPivot d i n)) := by
  have key := range'_foldl_inv
    (fun pr j => if absQ (getEntry d i j) > absQ (getEntry d i pr) then j else pr)
    (fun j pr => (i ≤ pr ∧ pr < n) ∧
      ∀ j2, i ≤ j2 → j2 < j → absQ (getEntry d i j2) ≤ absQ (getEntry d i pr))
    (n - i) i i ⟨⟨Nat.le_refl i, hi⟩, fun j2 h1 h2 => absurd h2 (by omega)⟩ ?_
  · have hn : i + (n - i) = n := by omega
    rw [hn] at key
    exact ⟨key.1, key.2⟩
  · rintro j pr hj1 hj2 ⟨⟨hpr1, hpr2⟩, hmax⟩
    dsimp only
    by_cases h : absQ (getEntry d i j) > absQ (getEntry d i pr)
    · rw [if_pos h]
      refine ⟨⟨hj1, by omega⟩, fun j2 h1 h2 => ?_⟩
      by_cases hj2eq : j2 = j
      · rw [hj2eq]
      · exact le_of_lt (lt_of_le_of_lt (hmax j2 h1 (by omega)) h)
    · rw [if_neg h]
      refine ⟨⟨hpr1, hpr2⟩, fun j2 h1 h2 => ?_⟩
      by_cases hj2eq : j2 = j
      · rw [hj2eq]
        exact le_of_not_lt h
      · exact hmax j2 h1 (by omega)

/- Option-valued fold lemmas (for the checked loops of mul_mat). -/

theorem range'_foldlM_opt {β : Type _} (f : β → ℕ → Option β) (Q : ℕ → β → Prop) :
    ∀ (len a : ℕ) (b0 : β), Q a b0 →
      (∀ j b, a ≤ j → j < a + len → Q j b → ∃ b2, f b j = some b2 ∧ Q (j + 1) b2) →
      ∃ bf, (List.range' a len).foldlM f b0 = some bf ∧ Q (a + len) bf
  | 0, a, b0, h0, _ => ⟨b0, rfl, h0⟩
  | len + 1, a, b0, h0, h => by
    rw [List.range'_succ, List.foldlM_cons]
    obtain ⟨b1, hb1, hQ1⟩ := h a b0 (Nat.le_refl a) (by omega) h0
    obtain ⟨bf, hbf, hQf⟩ := range'_foldlM_opt f Q len (a + 1) b1 hQ1
      (fun j b hj1 hj2 hb => h j b (by omega) (by omega) hb)
    have hEq : a + 1 + len = a + (len + 1) := by omega
    rw [hEq] at hQf
    exact ⟨bf, by rw [hb1]; simpa using hbf, hQf⟩

theorem range_foldlM_opt {β : Type _} (n : ℕ) (f : β → ℕ → Option β) (Q : ℕ → β → Prop)
    (b0 : β) (h0 : Q 0 b0)
    (h : ∀ j b, j < n → Q j b → ∃ b2, f b j = some b2 ∧ Q (j + 1) b2) :
    ∃ bf, (List.range n).foldlM f b0 = some bf ∧ Q n bf := by
  have h2 := range'_foldlM_opt f Q n 0 b0 h0 (fun j b hj1 hj2 hb => h j b (by omega) hb)
  rw [List.range_eq_range']
  simpa using h2

/- Only the singular error can come out of the Gauss-Jordan loop. -/

theorem foldlM_exc_error {β ε : Type _} (f : β → ℕ → Except ε β) (p : ε → Prop)
    (hf : ∀ b a e2, f b a = .error e2 → p e2) :
    ∀ (l : List ℕ) (b : β) (e : ε), l.foldlM f b = .error e → p e
  | [], b, e, h => by
    rw [List.foldlM_nil] at h
    exact absurd h (by simp [pure, Except.pure])
  | a :: l, b, e, h => by
    rw [List.foldlM_cons] at h
    rcases hfa : f b a with e2 | b2
    · rw [hfa] at h
      have hred : (do
          let init ← (Except.error e2 : Except ε β)
          List.foldlM f init l) = (Except.error e2 : Except ε β) := rfl
      rw [hred] at h
      injection h with h3
      exact h3 ▸ hf b a e2 hfa
    · rw [hfa] at h
      have hred : (do
          let init ← (Except.ok b2 : Except ε β)
          List.foldlM f init l) = List.foldlM f b2 l := rfl
      rw [hred] at h
      exact foldlM_exc_error f p hf l b2 e h

theorem gjStep_error {n : ℕ} {d : Data} {i : ℕ} {e : Err}
    (h : gjStep n d i = .error e) : e = .singular := by
  unfold gjStep at h
  by_cases hp : getEntry (gjPivoted d i n) i i = 0
  · rw [if_pos hp] at h
    injection h with h3
    exact h3.symm
  · rw [if_neg hp] at h
    exact absurd h (by simp)

/- Matrix views of the row operations on augmented data (n rows, n + n
columns): the left block is toM, the right block is rightM, and each row
operation acts on both as the corresponding Mathlib row update. -/

theorem toM_swapRowsD {dd : Data} {n r s : ℕ} (hd : dims dd (n + n) n)
    (hr : r < n) (hs : s < n) :
    toM n (swapRowsD dd r s)
      = (toM n dd).submatrix (Equiv.swap ⟨r, hr⟩ ⟨s, hs⟩) id := by
  ext x c
  rw [Matrix.submatrix_apply]
  show getEntry (swapRowsD dd r s) c x = toM n dd (Equiv.swap ⟨r, hr⟩ ⟨s, hs⟩ x) c
  rw [getEntry_swapRowsD hd hr hs]
  have hidx : ((Equiv.swap (⟨r, hr⟩ : Fin n) ⟨s, hs⟩ x) : ℕ)
      = if (x : ℕ) = r then s else if (x : ℕ) = s then r else x := by
    rcases x with ⟨xv, hxv⟩
    rw [Equiv.swap_apply_def]
    by_cases h1 : xv = r
    · rw [if_pos (Fin.ext h1), if_pos h1]
    · rw [if_neg (fun hEq => h1 (congrArg Fin.val hEq)), if_neg h1]
      by_cases h2 : xv = s
      · rw [if_pos (Fin.ext h2), if_pos h2]
      · rw [if_neg (fun hEq => h2 (congrArg Fin.val hEq)), if_neg h2]
  show getEntry dd c (if (x : ℕ) = r then s else if (x : ℕ) = s then r else (x : ℕ))
      = getEntry dd c ((Equiv.swap (⟨r, hr⟩ : Fin n) ⟨s, hs⟩ x) : ℕ)
  rw [hidx]

theorem rightM_swapRowsD {dd : Data} {n r s : ℕ} (hd : dims dd (n + n) n)
    (hr : r < n) (hs : s < n) :
    rightM n (swapRowsD dd r s)
      = (rightM n dd).submatrix (Equiv.swap ⟨r, hr⟩ ⟨s, hs⟩) id := by
  ext x c
  rw [Matrix.submatrix_apply]
  show getEntry (swapRowsD dd r s) (n + c) x
      = rightM n dd (Equiv.swap ⟨r, hr⟩ ⟨s, hs⟩ x) c
  rw [getEntry_swapRowsD hd hr hs]
  have hidx : ((Equiv.swap (⟨r, hr⟩ : Fin n) ⟨s, hs⟩ x) : ℕ)
      = if (x : ℕ) = r then s else if (x : ℕ) = s then r else x := by
    rcases x with ⟨xv, hxv⟩
    rw [Equiv.swap_apply_def]
    by_cases h1 : xv = r
    · rw [if_pos (Fin.ext h1), if_pos h1]
    · rw [if_neg (fun hEq => h1 (congrArg Fin.val hEq)), if_neg h1]
      by_cases h2 : xv = s
      · rw [if_pos (Fin.ext h2), if_pos h2]
      · rw [if_neg (fun hEq => h2 (congrArg Fin.val hEq)), if_neg h2]
  show getEntry dd (n + c) (if (x : ℕ) = r then s else if (x : ℕ) = s then r else (x : ℕ))
      = getEntry dd (n + c) ((Equiv.swap (⟨r, hr⟩ : Fin n) ⟨s, hs⟩ x) : ℕ)
  rw [hidx]

theorem toM_scaleRow {dd : Data} {n i : ℕ} (hd : dims dd (n + n) n) (hi : i < n) (p : ℚ) :
    toM n (scaleRow dd i p)
      = (toM n dd).updateRow ⟨i, hi⟩ (fun c => toM n dd ⟨i, hi⟩ c / p) := by
  ext x c
  rw [Matrix.updateRow_apply]
  show getEntry (scaleRow dd i p) c x = _
  rw [getEntry_scaleRow hd hi p c x]
  by_cases hx : (x : ℕ) = i
  · rw [if_pos hx, if_pos (Fin.ext hx)]
    rfl
  · rw [if_neg hx, if_neg (fun hEq => hx (congrArg Fin.val hEq))]
    rfl

theorem rightM_scaleRow {dd : Data} {n i : ℕ} (hd : dims dd (n + n) n) (hi : i < n) (p : ℚ) :
    rightM n (scaleRow dd i p)
      = (rightM n dd).updateRow ⟨i, hi⟩ (fun c => rightM n dd ⟨i, hi⟩ c / p) := by
  ext x c
  rw [Matrix.updateRow_apply]
  show getEntry (scaleRow dd i p) (n + c) x = _
  rw [getEntry_scaleRow hd hi p (n + c) x]
  by_cases hx : (x : ℕ) = i
  · rw [if_pos hx, if_pos (Fin.ext hx)]
    rfl
  · rw [if_neg hx, if_neg (fun hEq => hx (congrArg Fin.val hEq))]
    rfl

theorem toM_elimRow {dd : Data} {n i tgt : ℕ} (hd : dims dd (n + n) n)
    (hi : i < n) (ht : tgt < n) :
    toM n (elimRow dd i i tgt)
      = (toM n dd).updateRow ⟨tgt, ht⟩
          (fun c => toM n dd ⟨tgt, ht⟩ c - getEntry dd i tgt * toM n dd ⟨i, hi⟩ c) := by
  ext x c
  rw [Matrix.updateRow_apply]
  show getEntry (elimRow dd i i tgt) c x = _
  rw [getEntry_elimRow hd ht i i c x]
  by_cases hx : (x : ℕ) = tgt
  · rw [if_pos hx, if_pos (Fin.ext hx)]
    rfl
  · rw [if_neg hx, if_neg (fun hEq => hx (congrArg Fin.val hEq))]
    rfl

theorem rightM_elimRow {dd : Data} {n i tgt : ℕ} (hd : dims dd (n + n) n)
    (hi : i < n) (ht : tgt < n) :
    rightM n (elimRow dd i i tgt)
      = (rightM n dd).updateRow ⟨tgt, ht⟩
          (fun c => rightM n dd ⟨tgt, ht⟩ c - getEntry dd i tgt * rightM n dd ⟨i, hi⟩ c) := by
  ext x c
  rw [Matrix.updateRow_apply]
  show getEntry (elimRow dd i i tgt) (n + c) x = _
  rw [getEntry_elimRow hd ht i i (n + c) x]
  by_cases hx : (x : ℕ) = tgt
  · rw [if_pos hx, if_pos (Fin.ext hx)]
    rfl
  · rw [if_neg hx, if_neg (fun hEq => hx (congrArg Fin.val hEq))]
    rfl

theorem submatrix_rows_mul {n : ℕ} (X A : MatQ n) (σ : Equiv.Perm (Fin n)) :
    (X.submatrix σ id) * A = (X * A).submatrix σ id := by
  ext x c
  simp [Matrix.mul_apply, Matrix.submatrix_apply]

theorem updateRow_mul {n : ℕ} (X A : MatQ n) (r : Fin n) (v : Fin n → ℚ) :
    (X.updateRow r v) * A = (X * A).updateRow r (fun c => ∑ j, v j * A j c) := by
  ext x c
  by_cases hx : x = r
  · subst hx
    rw [Matrix.mul_apply, Matrix.updateRow_self]
    simp [Matrix.updateRow_self]
  · rw [Matrix.updateRow_ne hx, Matrix.mul_apply, Matrix.mul_apply]
    congr 1
    funext j
    rw [Matrix.updateRow_ne hx]

/- Preservation of the relation rightM * A0 = toM under the row operations. -/

theorem mulRel_swap {dd : Data} {n r s : ℕ} {A0 : MatQ n} (hd : dims dd (n + n) n)
    (hr : r < n) (hs : s < n) (hrel : rightM n dd * A0 = toM n dd) :
    rightM n (swapRowsD dd r s) * A0 = toM n (swapRowsD dd r s) := by
  rw [toM_swapRowsD hd hr hs, rightM_swapRowsD hd hr hs, submatrix_rows_mul, hrel]

theorem mulRel_scale {dd : Data} {n i : ℕ} {A0 : MatQ n} (hd : dims dd (n + n) n)
    (hi : i < n) (p : ℚ) (hrel : rightM n dd * A0 = toM n dd) :
    rightM n (scaleRow dd i p) * A0 = toM n (scaleRow dd i p) := by
  rw [toM_scaleRow hd hi p, rightM_scaleRow hd hi p, updateRow_mul, hrel]
  have hfun : (fun c => ∑ j, rightM n dd ⟨i, hi⟩ j / p * A0 j c)
      = fun c => toM n dd ⟨i, hi⟩ c / p := by
    funext c
    have h1 : ∀ j, rightM n dd ⟨i, hi⟩ j / p * A0 j c
        = rightM n dd ⟨i, hi⟩ j * A0 j c / p := fun j => by ring
    rw [Finset.sum_congr rfl (fun j _ => h1 j), ← Finset.sum_div]
    have h2 : (rightM n dd * A0) ⟨i, hi⟩ c = toM n dd ⟨i, hi⟩ c := by rw [hrel]
    rw [Matrix.mul_apply] at h2
    rw [h2]
  rw [hfun]

theorem mulRel_elim {dd : Data} {n i tgt : ℕ} {A0 : MatQ n} (hd : dims dd (n + n) n)
    (hi : i < n) (ht : tgt < n) (hrel : rightM n dd * A0 = toM n dd) :
    rightM n (elimRow dd i i tgt) * A0 = toM n (elimRow dd i i tgt) := by
  rw [toM_elimRow hd hi ht, rightM_elimRow hd hi ht, updateRow_mul, hrel]
  have hfun : (fun c => ∑ j,
        (rightM n dd ⟨tgt, ht⟩ j - getEntry dd i tgt * rightM n dd ⟨i, hi⟩ j) * A0 j c)
      = fun c => toM n dd ⟨tgt, ht⟩ c - getEntry dd i tgt * toM n dd ⟨i, hi⟩ c := by
    funext c
    have h1 : ∀ j, (rightM n dd ⟨tgt, ht⟩ j - getEntry dd i tgt * rightM n dd ⟨i, hi⟩ j)
          * A0 j c
        = rightM n dd ⟨tgt, ht⟩ j * A0 j c
          - getEntry dd i tgt * (rightM n dd ⟨i, hi⟩ j * A0 j c) := fun j => by ring
    rw [Finset.sum_congr rfl (fun j _ => h1 j), Finset.sum_sub_distrib, ← Finset.mul_sum]
    have h2 : (rightM n dd * A0) ⟨tgt, ht⟩ c = toM n dd ⟨tgt, ht⟩ c := by rw [hrel]
    have h3 : (rightM n dd * A0) ⟨i, hi⟩ c = toM n dd ⟨i, hi⟩ c := by rw [hrel]
    rw [Matrix.mul_apply] at h2 h3
    rw [h2, h3]
  rw [hfun]

/- Preservation of a nonzero determinant of the left block. -/

theorem det_ne_swap {dd : Data} {n r s : ℕ} (hd : dims dd (n + n) n)
    (hr : r < n) (hs : s < n) (h : (toM n dd).det ≠ 0) :
    (toM n (swapRowsD dd r s)).det ≠ 0 := by
  rw [toM_swapRowsD hd hr hs, Matrix.det_permute]
  rcases Int.units_eq_one_or (Equiv.Perm.sign (Equiv.swap (⟨r, hr⟩ : Fin n) ⟨s, hs⟩))
    with hsg | hsg <;> rw [hsg] <;> simpa using h

theorem det_ne_scale {dd : Data} {n i : ℕ} (hd : dims dd (n + n) n)
    (hi : i < n) {p : ℚ} (hp : p ≠ 0) (h : (toM n dd).det ≠ 0) :
    (toM n (scaleRow dd i p)).det ≠ 0 := by
  rw [toM_scaleRow hd hi p]
  have hfun : (fun c => toM n dd ⟨i, hi⟩ c / p) = p⁻¹ • (toM n dd ⟨i, hi⟩) := by
    funext c
    simp [div_eq_mul_inv, mul_comm]
  rw [hfun, Matrix.det_updateRow_smul, Matrix.updateRow_eq_self]
  exact mul_ne_zero (inv_ne_zero hp) h

theorem det_ne_elim {dd : Data} {n i tgt : ℕ} (hd : dims dd (n + n) n)
    (hi : i < n) (ht : tgt < n) (hit : tgt ≠ i) (h : (toM n dd).det ≠ 0) :
    (toM n (elimRow dd i i tgt)).det ≠ 0 := by
  rw [toM_elimRow hd hi ht]
  have hfun : (fun c => toM n dd ⟨tgt, ht⟩ c - getEntry dd i tgt * toM n dd ⟨i, hi⟩ c)
      = (toM n dd) ⟨tgt, ht⟩ + (-(getEntry dd i tgt)) • (toM n dd) ⟨i, hi⟩ := by
    funext c
    show toM n dd ⟨tgt, ht⟩ c - getEntry dd i tgt * toM n dd ⟨i, hi⟩ c
        = toM n dd ⟨tgt, ht⟩ c + -(getEntry dd i tgt) * toM n dd ⟨i, hi⟩ c
    ring
  rw [hfun, Matrix.det_updateRow_add_smul_self _ (by simp [Fin.ext_iff]; omega) _]
  exact h

/-- If the first i columns of L are the identity columns and column i is zero
from row i down, then L is singular: the columns are linearly dependent. -/
theorem det_zero_of_colzero {n : ℕ} {L : MatQ n} {i : ℕ} (hi : i < n)
    (hidL : ∀ c r : Fin n, (c : ℕ) < i → L r c = if (r : ℕ) = (c : ℕ) then 1 else 0)
    (hcol : ∀ r : Fin n, i ≤ (r : ℕ) → L r ⟨i, hi⟩ = 0) :
    L.det = 0 := by
  rw [← Matrix.exists_mulVec_eq_zero_iff_aux]
  refine ⟨fun c => if (c : ℕ) = i then 1
    else if (c : ℕ) < i then -(L c ⟨i, hi⟩) else 0, ?_, ?_⟩
  · intro h0
    have h1 := congrFun h0 ⟨i, hi⟩
    simp at h1
  · funext r
    show (∑ c, L r c * (if (c : ℕ) = i then 1
      else if (c : ℕ) < i then -(L c ⟨i, hi⟩) else 0)) = 0
    by_cases hr : (r : ℕ) < i
    · have hrne : r ≠ ⟨i, hi⟩ := by
        intro hEq
        rw [hEq] at hr
        simp at hr
      rw [Finset.sum_eq_add_of_mem (⟨i, hi⟩ : Fin n) r (Finset.mem_univ _)
        (Finset.mem_univ _) (fun hEq => hrne hEq.symm) ?_]
      · have h1 : L r r = 1 := by
          rw [hidL r r hr, if_pos rfl]
        have h2 : ((⟨i, hi⟩ : Fin n) : ℕ) = i := rfl
        rw [if_pos h2, if_neg (fun h => hrne (Fin.ext h)), if_pos hr, h1]
        ring
      · intro k _ ⟨hk1, hk2⟩
        by_cases hki : (k : ℕ) = i
        · exact absurd (Fin.ext hki) hk1
        · rw [if_neg hki]
          by_cases hklt : (k : ℕ) < i
          · rw [if_pos hklt, hidL k r hklt,
              if_neg (fun hEq => hk2 (Fin.ext hEq).symm)]
            ring
          · rw [if_neg hklt, mul_zero]
    · rw [Finset.sum_eq_single_of_mem (⟨i, hi⟩ : Fin n) (Finset.mem_univ _) ?_]
      · rw [if_pos rfl, mul_one]
        exact hcol r (by omega)
      · intro k _ hk
        by_cases hki : (k : ℕ) = i
        · exact absurd (Fin.ext hki) hk
        · rw [if_neg hki]
          by_cases hklt : (k : ℕ) < i
          · rw [if_pos hklt, hidL k r hklt, if_neg (by omega)]
            ring
          · rw [if_neg hklt, mul_zero]

/-- One Gauss-Jordan step succeeds (partial pivoting finds a nonzero pivot
because the tracked left block stays nonsingular) and extends the invariant:
dimensions, the relation right block times A0 equals left block, identity
columns up to i, and a nonsingular left block. -/
theorem gjStep_inv {n : ℕ} {A0 : MatQ n} {i : ℕ} (hi : i < n) (dd : Data)
    (hdd : dims dd (n + n) n)
    (hrel : rightM n dd * A0 = toM n dd)
    (hid : ∀ c r, c < i → r < n → getEntry dd c r = if r = c then 1 else 0)
    (hdet : (toM n dd).det ≠ 0) :
    ∃ dd3, gjStep n dd i = .ok dd3 ∧
      (dims dd3 (n + n) n ∧
       rightM n dd3 * A0 = toM n dd3 ∧
       (∀ c r, c < i + 1 → r < n → getEntry dd3 c r = if r = c then 1 else 0) ∧
       (toM n dd3).det ≠ 0) := by
  obtain ⟨⟨hpr1, hpr2⟩, hmax⟩ := gjFindPivot_spec (d := dd) hi
  have hd1 : dims (gjPivoted dd i n) (n + n) n := by
    unfold gjPivoted
    split
    · exact dims_swapRowsD hdd i (gjFindPivot dd i n)
    · exact hdd
  have hrel1 : rightM n (gjPivoted dd i n) * A0 = toM n (gjPivoted dd i n) := by
    unfold gjPivoted
    split
    · exact mulRel_swap hdd hi hpr2 hrel
    · exact hrel
  have hdet1 : (toM n (gjPivoted dd i n)).det ≠ 0 := by
    unfold gjPivoted
    split
    · exact det_ne_swap hdd hi hpr2 hdet
    · exact hdet
  have hid1 : ∀ c r, c < i → r < n →
      getEntry (gjPivoted dd i n) c r = if r = c then 1 else 0 := by
    intro c r hc hr
    unfold gjPivoted
    split
    · rw [getEntry_swapRowsD hdd hi hpr2]
      by_cases h1 : r = i
      · rw [if_pos h1, hid c _ hc hpr2, if_neg (by omega), if_neg (by omega)]
      · rw [if_neg h1]
        by_cases h2 : r = gjFindPivot dd i n
        · rw [if_pos h2, hid c i hc hi, if_neg (by omega), if_neg (by omega)]
        · rw [if_neg h2]
          exact hid c r hc hr
    · exact hid c r hc hr
  have hpivotval : getEntry (gjPivoted dd i n) i i
      = getEntry dd i (gjFindPivot dd i n) := by
    unfold gjPivoted
    split
    · rw [getEntry_swapRowsD hdd hi hpr2, if_pos rfl]
    · rename_i h
      push_neg at h
      rw [h]
  by_cases hp : getEntry (gjPivoted dd i n) i i = 0
  · exfalso
    have hallzero : ∀ j, i ≤ j → j < n → getEntry dd i j = 0 := by
      intro j h1 h2
      have hle := hmax j h1 h2
      rw [hpivotval] at hp
      rw [hp] at hle
      have h3 : absQ (getEntry dd i j) ≤ 0 := by simpa [absQ] using hle
      rw [absQ_eq_abs] at h3
      exact abs_nonpos_iff.1 h3
    have hcolzero : ∀ r, i ≤ r → r < n → getEntry (gjPivoted dd i n) i r = 0 := by
      intro r h1 h2
      unfold gjPivoted
      split
      · rw [getEntry_swapRowsD hdd hi hpr2]
        by_cases ha : r = i
        · rw [if_pos ha]
          exact hallzero _ hpr1 hpr2
        · rw [if_neg ha]
          by_cases hb : r = gjFindPivot dd i n
          · rw [if_pos hb]
            exact hallzero i (Nat.le_refl i) hi
          · rw [if_neg hb]
            exact hallzero r h1 h2
      · exact hallzero r h1 h2
    apply hdet1
    apply det_zero_of_colzero hi
    · intro c r hc
      show getEntry (gjPivoted dd i n) c r = _
      rw [hid1 c r hc r.isLt]
    · intro r hr
      show getEntry (gjPivoted dd i n) i r = 0
      exact hcolzero r hr r.isLt
  · -- pivot nonzero: normalise and eliminate
    have hd2 : dims (scaleRow (gjPivoted dd i n) i (getEntry (gjPivoted dd i n) i i))
        (n + n) n := dims_scaleRow hd1 i _
    have hrel2 := mulRel_scale hd1 hi
      (getEntry (gjPivoted dd i n) i i) hrel1
    have hdet2 := det_ne_scale hd1 hi hp hdet1
    have hchar2 := getEntry_scaleRow hd1 hi (getEntry (gjPivoted dd i n) i i)
    have hid2 : ∀ c r, c < i → r < n →
        getEntry (scaleRow (gjPivoted dd i n) i (getEntry (gjPivoted dd i n) i i)) c r
          = if r = c then 1 else 0 := by
      intro c r hc hr
      rw [hchar2 c r]
      by_cases h1 : r = i
      · rw [if_pos h1, hid1 c i hc hi, if_neg (by omega), if_neg (by omega)]
        simp
      · rw [if_neg h1]
        exact hid1 c r hc hr
    have hd2ii : getEntry (scaleRow (gjPivoted dd i n) i
        (getEntry (gjPivoted dd i n) i i)) i i = 1 := by
      rw [hchar2 i i, if_pos rfl]
      exact div_self hp
    have key := range_foldl_inv n (fun dd2 r => if r = i then dd2 else elimRow dd2 i i r)
      (fun s dd2 => dims dd2 (n + n) n ∧
        rightM n dd2 * A0 = toM n dd2 ∧
        (∀ c r, c < i → r < n → getEntry dd2 c r = if r = c then 1 else 0) ∧
        (toM n dd2).det ≠ 0 ∧
        (∀ k, getEntry dd2 k i
          = getEntry (scaleRow (gjPivoted dd i n) i
              (getEntry (gjPivoted dd i n) i i)) k i) ∧
        (∀ r, r < s → r ≠ i → getEntry dd2 i r = 0))
      (scaleRow (gjPivoted dd i n) i (getEntry (gjPivoted dd i n) i i))
      ⟨hd2, hrel2, hid2, hdet2, fun k => rfl, fun r h1 h2 => absurd h1 (by omega)⟩
      ?_
    · obtain ⟨hd3, hrel3, hid3, hdet3, hrow3, hcol3⟩ := key
      refine ⟨_, ?_, hd3, hrel3, ?_, hdet3⟩
      · unfold gjStep
        rw [if_neg hp]
      · intro c r hc hr
        by_cases hci : c < i
        · exact hid3 c r hci hr
        · have hceq : c = i := by omega
          by_cases hri : r = i
          · rw [hceq, hri, hrow3 i, hd2ii, if_pos rfl]
          · rw [hceq, hcol3 r hr hri, if_neg hri]
    · rintro s dd2 hs ⟨hdd2, hrel2b, hid2b, hdet2b, hrow2b, hcol2b⟩
      dsimp only
      by_cases hsi : s = i
      · rw [if_pos hsi]
        refine ⟨hdd2, hrel2b, hid2b, hdet2b, hrow2b, ?_⟩
        intro r h1 h2
        rcases Nat.lt_or_ge r s with h3 | h3
        · exact hcol2b r h3 h2
        · have : r = s := by omega
          rw [this] at h2
          exact absurd hsi (by rw [← this]; exact fun hh => h2 (this ▸ hh))
      · rw [if_neg hsi]
        have hchar := getEntry_elimRow hdd2 (show s < n from hs) i i
        refine ⟨dims_elimRow hdd2 i i s, mulRel_elim hdd2 hi hs hrel2b, ?_,
          det_ne_elim hdd2 hi hs hsi hdet2b, ?_, ?_⟩
        · intro c r hc hr
          rw [hchar c r]
          by_cases h1 : r = s
          · rw [if_pos h1, hid2b c s hc hs, hid2b c i hc hi]
            rw [if_neg (show ¬ i = c by omega), mul_zero, sub_zero, h1]
          · rw [if_neg h1]
            exact hid2b c r hc hr
        · intro k
          rw [hchar k i, if_neg (fun hh => hsi hh.symm)]
          exact hrow2b k
        · intro r h1 h2
          rcases Nat.lt_or_ge r s with h3 | h3
          · rw [hchar i r, if_neg (by omega)]
            exact hcol2b r h3 h2
          · have hrs : r = s := by omega
            subst hrs
            rw [hchar i r, if_pos rfl, hrow2b i, hd2ii, mul_one, sub_self]

/- Characterisation of the extraction of the right half. -/

theorem extractRight_spec (d : Data) (n : ℕ) :
    dims (extractRight d n) n n ∧
    ∀ c r, c < n →
      getEntry (extractRight d n) c r = if r < n then getEntry d (c + n) r else 0 := by
  constructor
  · constructor
    · simp [extractRight]
    · intro col hcol
      obtain ⟨c0, _, rfl⟩ := List.mem_map.1 hcol
      exact length_normCol _ n
  · intro c r hc
    unfold extractRight getEntry
    rw [getDCol_eq_getElem (by simpa using hc)]
    rw [List.getElem_map]
    rw [List.getElem_range]
    exact getD_normCol _ n r

/-- The Gauss-Jordan loop of inverse succeeds on every well-formed square
matrix with nonzero determinant, and the extracted right half is a left
inverse of the stored matrix. -/
theorem inverse_ok {A : Matrix} (hWF : WF A) (hsq : A.is_square = true)
    (hdet : (toM A.rows A.data).det ≠ 0) :
    ∃ B, inverse A = .ok B ∧ dims B.data A.rows A.rows ∧
      toM A.rows B.data * toM A.rows A.data = 1 := by
  have hdims : dims A.data A.rows A.rows := WF_square_dims hWF hsq
  have haugdims : dims (hconcatD A.data (identityData A.rows) A.rows)
      (A.rows + A.rows) A.rows := by
    have h1 := hconcatD_dims A.data (identityData A.rows) A.rows
    rw [hdims.1, (identityData_spec A.rows).1.1] at h1
    exact h1
  have haugL : toM A.rows (hconcatD A.data (identityData A.rows) A.rows)
      = toM A.rows A.data := by
    ext x c
    show getEntry (hconcatD A.data (identityData A.rows) A.rows) c x = getEntry A.data c x
    rw [getEntry_hconcatD, if_pos x.isLt, if_pos (by rw [hdims.1]; exact c.isLt)]
  have haugR : rightM A.rows (hconcatD A.data (identityData A.rows) A.rows)
      = (1 : MatQ A.rows) := by
    ext x c
    show getEntry (hconcatD A.data (identityData A.rows) A.rows) (A.rows + c) x = _
    rw [getEntry_hconcatD, if_pos x.isLt, if_neg (by rw [hdims.1]; omega)]
    have hsub : A.rows + (c : ℕ) - A.data.length = c := by
      rw [hdims.1]
      omega
    rw [hsub, (identityData_spec A.rows).2 c x c.isLt x.isLt]
    rw [Matrix.one_apply]
    by_cases h : (x : ℕ) = (c : ℕ)
    · rw [if_pos h, if_pos (Fin.ext h)]
    · rw [if_neg h, if_neg (fun hEq => h (congrArg Fin.val hEq))]
  obtain ⟨augF, haugF, hQF⟩ := range_foldlM_exc A.rows (gjStep A.rows)
    (fun i dd => dims dd (A.rows + A.rows) A.rows ∧
      rightM A.rows dd * toM A.rows A.data = toM A.rows dd ∧
      (∀ c r, c < i → r < A.rows → getEntry dd c r = if r = c then 1 else 0) ∧
      (toM A.rows dd).det ≠ 0)
    (hconcatD A.data (identityData A.rows) A.rows)
    ⟨haugdims, by rw [haugR, haugL, Matrix.one_mul],
      fun c r hc _ => absurd hc (by omega), by rw [haugL]; exact hdet⟩
    (fun i dd hi hQ => gjStep_inv hi dd hQ.1 hQ.2.1 hQ.2.2.1 hQ.2.2.2)
  obtain ⟨hdF, hrelF, hidF, _⟩ := hQF
  have hLF : toM A.rows augF = 1 := by
    ext x c
    show getEntry augF c x = _
    rw [hidF c x c.isLt x.isLt, Matrix.one_apply]
    by_cases h : (x : ℕ) = (c : ℕ)
    · rw [if_pos h, if_pos (Fin.ext h)]
    · rw [if_neg h, if_neg (fun hEq => h (congrArg Fin.val hEq))]
  obtain ⟨hexdims, hexent⟩ := extractRight_spec augF A.rows
  refine ⟨⟨extractRight augF A.rows⟩, ?_, hexdims, ?_⟩
  · unfold inverse
    rw [if_neg (by simp [hsq]), determinant_eq_det hWF hsq]
    show (if (toM A.rows A.data).det = 0 then Except.error Err.singular
      else match gjLoop (hconcatD A.data (identityData A.rows) A.rows) A.rows with
        | Except.error e => Except.error e
        | Except.ok aug => Except.ok (Matrix.mk (extractRight aug A.rows)))
      = Except.ok (Matrix.mk (extractRight augF A.rows))
    rw [if_neg hdet]
    have hloop : gjLoop (hconcatD A.data (identityData A.rows) A.rows) A.rows
        = Except.ok augF := haugF
    rw [hloop]
  · have hex : toM A.rows (extractRight augF A.rows) = rightM A.rows augF := by
      ext x c
      show getEntry (extractRight augF A.rows) c x = getEntry augF (A.rows + c) x
      rw [hexent c x c.isLt, if_pos x.isLt, Nat.add_comm]
    rw [hex, hrelF, hLF]

/- Correctness of mul_mat on square operands (the only case in which the
swapped constructor arguments produce correctly sized storage). -/

theorem rows_eq_of_dims {A : Matrix} {n : ℕ} (hd : dims A.data n n) : A.rows = n := by
  rcases Nat.eq_zero_or_pos n with h0 | hpos
  · subst h0
    have hlen := hd.1
    rcases hA : A.data with _ | ⟨c0, tl⟩
    · show (match A.data with | [] => 0 | c :: _ => c.length) = 0
      rw [hA]
    · rw [hA] at hlen
      simp at hlen
  · exact rows_of_dims hd hpos

theorem getEntryChk_some {res : Data} {n c r : ℕ} (hd : dims res n n)
    (hc : c < n) (hr : r < n) : getEntryChk res c r = some (getEntry res c r) := by
  unfold getEntryChk
  rw [if_pos ⟨by have := hd.1; omega,
    by rw [col_length hd (by have := hd.1; omega)]; exact hr⟩]

theorem setEntryChk_some {res : Data} {n c r : ℕ} (hd : dims res n n)
    (hc : c < n) (hr : r < n) (v : ℚ) : setEntryChk res c r v = some (setE res c r v) := by
  unfold setEntryChk setE
  rw [if_pos ⟨by have := hd.1; omega, by rw [col_length hd (by have := hd.1; omega)]; exact hr⟩]

theorem mulMat_inner (dA dB : Data) {n : ℕ} {c r : ℕ} (hc : c < n) (hr : r < n)
    (res0 : Data) (h0 : dims res0 n n) (hz : getEntry res0 c r = 0) :
    ∃ res2, (List.range n).foldlM
        (fun res k => do
          let cur ← getEntryChk res c r
          setEntryChk res c r (getEntry dA k r * getEntry dB c k + cur)) res0 = some res2
      ∧ dims res2 n n
      ∧ getEntry res2 c r = ∑ k ∈ Finset.range n, getEntry dA k r * getEntry dB c k
      ∧ ∀ c2 r2, ¬(c2 = c ∧ r2 = r) → getEntry res2 c2 r2 = getEntry res0 c2 r2 := by
  have hstep : ∀ k res, k < n →
      (dims res n n ∧
        getEntry res c r = ∑ j ∈ Finset.range k, getEntry dA j r * getEntry dB c j ∧
        ∀ c2 r2, ¬(c2 = c ∧ r2 = r) → getEntry res c2 r2 = getEntry res0 c2 r2) →
      ∃ res2, (do
          let cur ← getEntryChk res c r
          setEntryChk res c r (getEntry dA k r * getEntry dB c k + cur)) = some res2 ∧
        (dims res2 n n ∧
          getEntry res2 c r = ∑ j ∈ Finset.range (k + 1), getEntry dA j r * getEntry dB c j ∧
          ∀ c2 r2, ¬(c2 = c ∧ r2 = r) → getEntry res2 c2 r2 = getEntry res0 c2 r2) := by
    rintro k res hk ⟨hdr, hsum, hunch⟩
    refine ⟨setE res c r (getEntry dA k r * getEntry dB c k + getEntry res c r), ?_, ?_, ?_, ?_⟩
    · rw [getEntryChk_some hdr hc hr]
      show setEntryChk res c r _ = _
      rw [setEntryChk_some hdr hc hr]
    · exact dims_setE hdr hc r _
    · rw [getEntry_setE hdr hc hr _ c r, if_pos ⟨rfl, rfl⟩, hsum, Finset.sum_range_succ]
      ring
    · intro c2 r2 hne
      rw [getEntry_setE hdr hc hr _ c2 r2, if_neg hne]
      exact hunch c2 r2 hne
  obtain ⟨res2, hres2, hQ⟩ := range_foldlM_opt n
    (fun res k => do
      let cur ← getEntryChk res c r
      setEntryChk res c r (getEntry dA k r * getEntry dB c k + cur))
    (fun t res => dims res n n ∧
      getEntry res c r = ∑ j ∈ Finset.range t, getEntry dA j r * getEntry dB c j ∧
      ∀ c2 r2, ¬(c2 = c ∧ r2 = r) → getEntry res c2 r2 = getEntry res0 c2 r2)
    res0 ⟨h0, by rw [hz]; simp, fun c2 r2 _ => rfl⟩
    hstep
  exact ⟨res2, hres2, hQ.1, hQ.2.1, hQ.2.2⟩

theorem mulMat_mid (dA dB : Data) {n : ℕ} {c : ℕ} (hc : c < n)
    (res0 : Data) (h0 : dims res0 n n) (hzcol : ∀ r2, r2 < n → getEntry res0 c r2 = 0) :
    ∃ res2, (List.range n).foldlM
        (fun res r => (List.range n).foldlM
          (fun res k => do
            let cur ← getEntryChk res c r
            setEntryChk res c r (getEntry dA k r * getEntry dB c k + cur)) res) res0
        = some res2
      ∧ dims res2 n n
      ∧ (∀ r2, r2 < n → getEntry res2 c r2
          = ∑ k ∈ Finset.range n, getEntry dA k r2 * getEntry dB c k)
      ∧ ∀ c2 r2, c2 ≠ c → getEntry res2 c2 r2 = getEntry res0 c2 r2 := by
  have hstep : ∀ s res, s < n →
      (dims res n n ∧
        (∀ r2, r2 < s → getEntry res c r2
          = ∑ k ∈ Finset.range n, getEntry dA k r2 * getEntry dB c k) ∧
        (∀ r2, s ≤ r2 → r2 < n → getEntry res c r2 = 0) ∧
        ∀ c2 r2, c2 ≠ c → getEntry res c2 r2 = getEntry res0 c2 r2) →
      ∃ res2, (List.range n).foldlM
          (fun res k => do
            let cur ← getEntryChk res c s
            setEntryChk res c s (getEntry dA k s * getEntry dB c k + cur)) res = some res2 ∧
        (dims res2 n n ∧
          (∀ r2, r2 < s + 1 → getEntry res2 c r2
            = ∑ k ∈ Finset.range n, getEntry dA k r2 * getEntry dB c k) ∧
          (∀ r2, s + 1 ≤ r2 → r2 < n → getEntry res2 c r2 = 0) ∧
          ∀ c2 r2, c2 ≠ c → getEntry res2 c2 r2 = getEntry res0 c2 r2) := by
    rintro s res hs ⟨hdr, hdone, hzero, hunch⟩
    obtain ⟨resI, hresI, hdI, hsumI, hunchI⟩ :=
      mulMat_inner dA dB hc hs res hdr (hzero s (Nat.le_refl s) hs)
    refine ⟨resI, hresI, hdI, ?_, ?_, ?_⟩
    · intro r2 h2
      by_cases hr2 : r2 = s
      · rw [hr2]
        exact hsumI
      · rw [hunchI c r2 (by tauto)]
        exact hdone r2 (by omega)
    · intro r2 h2 h3
      rw [hunchI c r2 (by intro hpair; omega)]
      exact hzero r2 (by omega) h3
    · intro c2 r2 h2
      rw [hunchI c2 r2 (by tauto)]
      exact hunch c2 r2 h2
  obtain ⟨res2, hres2, hQ⟩ := range_foldlM_opt n
    (fun res r => (List.range n).foldlM
      (fun res k => do
        let cur ← getEntryChk res c r
        setEntryChk res c r (getEntry dA k r * getEntry dB c k + cur)) res)
    (fun s res => dims res n n ∧
      (∀ r2, r2 < s → getEntry res c r2
        = ∑ k ∈ Finset.range n, getEntry dA k r2 * getEntry dB c k) ∧
      (∀ r2, s ≤ r2 → r2 < n → getEntry res c r2 = 0) ∧
      ∀ c2 r2, c2 ≠ c → getEntry res c2 r2 = getEntry res0 c2 r2)
    res0 ⟨h0, fun r2 h2 => absurd h2 (by omega), fun r2 _ h2 => hzcol r2 h2,
      fun c2 r2 _ => rfl⟩
    hstep
  exact ⟨res2, hres2, hQ.1, fun r2 h2 => hQ.2.1 r2 h2, hQ.2.2.2⟩

theorem mul_mat_square {A B : Matrix} {n : ℕ} (hA : dims A.data n n) (hB : dims B.data n n) :
    ∃ P, mul_mat A B = .ok P ∧ dims P.data n n ∧
      toM n P.data = toM n A.data * toM n B.data := by
  have hAc : A.cols = n := hA.1
  have hAr : A.rows = n := rows_eq_of_dims hA
  have hBc : B.cols = n := hB.1
  have hBr : B.rows = n := rows_eq_of_dims hB
  have hstep : ∀ t res, t < n →
      (dims res n n ∧
        ∀ c2 r2, c2 < n → r2 < n → getEntry res c2 r2
          = if c2 < t then ∑ k ∈ Finset.range n, getEntry A.data k r2 * getEntry B.data c2 k
            else 0) →
      ∃ res2, (List.range n).foldlM
          (fun res r => (List.range n).foldlM
            (fun res k => do
              let cur ← getEntryChk res t r
              setEntryChk res t r (getEntry A.data k r * getEntry B.data t k + cur)) res) res
          = some res2 ∧
        (dims res2 n n ∧
          ∀ c2 r2, c2 < n → r2 < n → getEntry res2 c2 r2
            = if c2 < t + 1
              then ∑ k ∈ Finset.range n, getEntry A.data k r2 * getEntry B.data c2 k
              else 0) := by
    rintro t res ht ⟨hdr, hent⟩
    obtain ⟨resM, hresM, hdM, hsumM, hunchM⟩ :=
      mulMat_mid A.data B.data ht res hdr
        (fun r2 h2 => by rw [hent t r2 ht h2, if_neg (by omega)])
    refine ⟨resM, hresM, hdM, ?_⟩
    intro c2 r2 h2 h3
    by_cases hc2 : c2 = t
    · rw [hc2, if_pos (by omega)]
      exact hsumM r2 h3
    · rw [hunchM c2 r2 hc2, hent c2 r2 h2 h3]
      by_cases h4 : c2 < t
      · rw [if_pos h4, if_pos (by omega)]
      · rw [if_neg h4, if_neg (by omega)]
  obtain ⟨resF, hresF, hQF⟩ := range_foldlM_opt n
    (fun res c => (List.range n).foldlM
      (fun res r => (List.range n).foldlM
        (fun res k => do
          let cur ← getEntryChk res c r
          setEntryChk res c r (getEntry A.data k r * getEntry B.data c k + cur)) res) res)
    (fun t res => dims res n n ∧
      ∀ c2 r2, c2 < n → r2 < n → getEntry res c2 r2
        = if c2 < t then ∑ k ∈ Finset.range n, getEntry A.data k r2 * getEntry B.data c2 k
          else 0)
    (mkMatrixData n n)
    ⟨dims_mkMatrixData n n, fun c2 r2 _ _ => by
      rw [getEntry_mkMatrixData, if_neg (by omega)]⟩
    hstep
  obtain ⟨hdF, hentF⟩ := hQF
  refine ⟨⟨resF⟩, ?_, hdF, ?_⟩
  · unfold mul_mat
    rw [if_neg (by rw [hAc, hBr]; simp)]
    have hloop : mulMatLoop A.data B.data A.cols A.rows B.cols
        (mkMatrixData A.rows B.cols) = some resF := by
      unfold mulMatLoop
      rw [hAc, hAr, hBc]
      exact hresF
    rw [hloop]
  · ext x c
    show getEntry resF c x = _
    rw [hentF c x c.isLt x.isLt, if_pos c.isLt, Matrix.mul_apply]
    rw [← Fin.sum_univ_eq_sum_range (fun k => getEntry A.data k x * getEntry B.data c k) n]
    rfl

theorem determinant_ok_of_square {A : Matrix} (hs : A.is_square = true) :
    ∃ v, determinant A = .ok v := by
  unfold determinant
  rw [if_neg (by simp [hs])]
  by_cases h1 : A.rows = 1
  · rw [if_pos h1]
    exact ⟨_, rfl⟩
  · rw [if_neg h1]
    by_cases h2 : A.rows = 2
    · rw [if_pos h2]
      exact ⟨_, rfl⟩
    · rw [if_neg h2]
      exact ⟨_, rfl⟩

/-- C4: for every well-formed matrix A whose determinant operation returns a
nonzero value, inverse succeeds with some B, mul_mat A B succeeds with some P,
and P compares equal (under the tolerant operator==) to the identity matrix of
order rows(A). -/
theorem mul_mat_inverse_identity (A : Matrix) (dv : ℚ) (hWF : WF A)
    (hdv : determinant A = .ok dv) (hne : dv ≠ 0) :
    ∃ B P, inverse A = .ok B ∧ mul_mat A B = .ok P ∧
      matEq P ⟨identityData A.rows⟩ = true := by
  have hsq : A.is_square = true := by
    by_contra h
    unfold determinant at hdv
    rw [if_pos h] at hdv
    exact absurd hdv (by simp)
  have hdet2 := determinant_eq_det hWF hsq
  have hdveq : (toM A.rows A.data).det = dv := by
    have h2 := hdv.symm.trans hdet2
    injection h2 with h3
    exact h3.symm
  obtain ⟨B, hBok, hBdims, hBmul⟩ := inverse_ok hWF hsq (by rw [hdveq]; exact hne)
  have hAdims : dims A.data A.rows A.rows := WF_square_dims hWF hsq
  obtain ⟨P, hPok, hPdims, hPmul⟩ := mul_mat_square hAdims hBdims
  have hone : toM A.rows A.data * toM A.rows B.data = 1 :=
    Matrix.mul_eq_one_comm.mpr hBmul
  rw [hone] at hPmul
  refine ⟨B, P, hBok, hPok, ?_⟩
  rw [matEq_iff]
  have hPr : P.rows = A.rows := rows_eq_of_dims hPdims
  have hPc : P.cols = A.rows := hPdims.1
  have hIdims : dims (Matrix.mk (identityData A.rows)).data A.rows A.rows :=
    (identityData_spec A.rows).1
  have hIr : (Matrix.mk (identityData A.rows)).rows = A.rows := rows_eq_of_dims hIdims
  have hIc : (Matrix.mk (identityData A.rows)).cols = A.rows := hIdims.1
  refine ⟨by rw [hPr, hIr], by rw [hPc, hIc], ?_⟩
  intro c hcP r hrP
  rw [hPc] at hcP
  rw [hPr] at hrP
  have hPent : getEntry P.data c r = ((1 : MatQ A.rows) ⟨r, hrP⟩ ⟨c, hcP⟩) := by
    have hx : getEntry P.data c r = (toM A.rows P.data) ⟨r, hrP⟩ ⟨c, hcP⟩ := rfl
    rw [hx, hPmul]
  have hfin : ((⟨r, hrP⟩ : Fin A.rows) = ⟨c, hcP⟩) ↔ r = c := by
    constructor
    · intro hf
      exact congrArg Fin.val hf
    · intro hf
      exact Fin.ext hf
  show |getEntry P.data c r - getEntry (identityData A.rows) c r| ≤ eps
  rw [hPent, (identityData_spec A.rows).2 c r hcP hrP, Matrix.one_apply]
  by_cases hrc : r = c
  · rw [if_pos (hfin.mpr hrc), if_pos hrc, sub_self, abs_zero]
    unfold eps
    norm_num
  · rw [if_neg (fun hf => hrc (hfin.mp hf)), if_neg hrc, sub_self, abs_zero]
    unfold eps
    norm_num

/-- Witness for the claim C4 theorem at the invertible 1x1 matrix [[2]]. -/
theorem mul_mat_inverse_identity_witness :
    ∃ B P, inverse ⟨[[2]]⟩ = .ok B ∧ mul_mat ⟨[[2]]⟩ B = .ok P ∧
      matEq P ⟨identityData (Matrix.mk [[2]]).rows⟩ = true :=
  mul_mat_inverse_identity ⟨[[2]]⟩ 2
    (by
      intro col hcol
      rw [List.mem_singleton] at hcol
      rw [hcol]
      rfl)
    (by with_unfolding_all rfl)
    (by norm_num)

/-- C6: inverse returns the non-square error on every non-square input,
returns the singular error whenever the determinant operation returns zero,
returns no error other than these two, and the elimination step itself
returns the singular error whenever the pivot entry left after partial
pivoting is exactly zero.  (The source method operates on a copy of the
receiver, so the input is never modified.) -/
theorem inverse_error_semantics (A : Matrix) :
    (¬ A.is_square = true → inverse A = .error .notSquare) ∧
    (∀ dv, determinant A = .ok dv → dv = 0 → inverse A = .error .singular) ∧
    (∀ e, inverse A = .error e → e = .notSquare ∨ e = .singular) ∧
    (∀ (d : Data) (i n : ℕ), getEntry (gjPivoted d i n) i i = 0 →
      gjStep n d i = .error .singular) := by
  refine ⟨?_, ?_, ?_, ?_⟩
  · intro h
    unfold inverse
    rw [if_pos h]
  · intro dv hdv h0
    by_cases hs : A.is_square = true
    · unfold inverse
      rw [if_neg (by simp [hs]), hdv]
      show (if dv = 0 then (Except.error Err.singular : Except Err Matrix)
        else match gjLoop (hconcatD A.data (identityData A.rows) A.rows) A.rows with
          | Except.error e => Except.error e
          | Except.ok aug => Except.ok (Matrix.mk (extractRight aug A.rows)))
        = Except.error Err.singular
      rw [if_pos h0]
    · unfold determinant at hdv
      rw [if_pos hs] at hdv
      exact absurd hdv (by simp)
  · intro e h
    unfold inverse at h
    by_cases hs : A.is_square = true
    · rw [if_neg (by simp [hs])] at h
      obtain ⟨dv, hdet⟩ := determinant_ok_of_square hs
      rw [hdet] at h
      have h2 : (if dv = 0 then (Except.error Err.singular : Except Err Matrix)
          else match gjLoop (hconcatD A.data (identityData A.rows) A.rows) A.rows with
            | Except.error e3 => Except.error e3
            | Except.ok aug => Except.ok (Matrix.mk (extractRight aug A.rows)))
          = Except.error e := h
      by_cases h0 : dv = 0
      · rw [if_pos h0] at h2
        injection h2 with h3
        exact Or.inr h3.symm
      · rw [if_neg h0] at h2
        rcases hloop : gjLoop (hconcatD A.data (identityData A.rows) A.rows) A.rows
          with e3 | aug
        · rw [hloop] at h2
          have h4 : (Except.error e3 : Except Err Matrix) = Except.error e := h2
          injection h4 with h5
          have h6 : e3 = Err.singular := by
            have h7 : (List.range A.rows).foldlM (gjStep A.rows)
                (hconcatD A.data (identityData A.rows) A.rows) = Except.error e3 := hloop
            exact foldlM_exc_error (gjStep A.rows) (fun e4 => e4 = Err.singular)
              (fun b a e4 he => gjStep_error he) (List.range A.rows) _ e3 h7
          exact Or.inr (h5 ▸ h6)
        · rw [hloop] at h2
          have h4 : (Except.ok (Matrix.mk (extractRight aug A.rows)) : Except Err Matrix)
              = Except.error e := h2
          exact absurd h4 (by simp)
    · rw [if_pos hs] at h
      injection h with h3
      exact Or.inl h3.symm
  · intro d i n h
    unfold gjStep
    rw [if_pos h]

/-- Witness for the claim C6 theorem at the singular 2x2 matrix with rows
(1, 2) and (2, 4), whose determinant is zero. -/
theorem inverse_error_semantics_witness :
    determinant ⟨[[1, 2], [2, 4]]⟩ = .ok 0 ∧
    inverse ⟨[[1, 2], [2, 4]]⟩ = .error .singular :=
  ⟨by with_unfolding_all rfl,
   (inverse_error_semantics ⟨[[1, 2], [2, 4]]⟩).2.1 0 (by with_unfolding_all rfl) rfl⟩

end ML

